import Mathlib

/-!
Verification of the X-finetune-scraper pipeline against its specification.

The development shallowly embeds the JavaScript sources:
* `src/utils/DataOrganizer.js` — analytics, fine-tuning extraction, merge/ranking;
* `src/utils/merge-characters.js` (entry point passing merge options);
* `src/twitter/TwitterPipeline.js` — tweet normalization, collection loop,
  cleanup and progress records;
* `src/twitter/index.js` — the termination-signal handler.

Modelling conventions for JavaScript semantics:
* machine numbers are modelled as `Nat`/`Int` (the values involved — counts,
  epoch milliseconds — are integral and far below 2^53, where JS number
  arithmetic is exact);
* a possibly-absent field is an `Option`;
* `Array.prototype.sort` (stable since ES2019) with a numeric comparator is
  modelled as the stable `List.insertionSort`; stability plus sortedness
  determines the result uniquely, so any stable sort is an exact model;
* code that can throw returns `Except String`.
-/

open scoped List

/-- Ranking method selected by the merge prompt in `merge-characters.js`
(choices "Total engagement (likes + retweets)", "Likes only", "Retweets only"). -/
inductive RankingMethod where
  | totalEngagement
  | likesOnly
  | retweetsOnly
deriving DecidableEq, Repr

/-- Options object passed to `createMergedCharacter` (built in `merge-characters.js`
from the inquirer answers). `tweetsPerAccount` is `none` when the answer is
absent; JS treats both `undefined` and `0` as falsy in `options.tweetsPerAccount || 50`. -/
structure MergePolicy where
  excludeRetweets : Bool
  tweetsPerAccount : Option Nat
  rankingMethod : RankingMethod
deriving DecidableEq, Repr

/-- A processed tweet as produced by `TwitterPipeline.processTweetData` and
consumed by `DataOrganizer`. `timestamp` is `Option` because `DataOrganizer`
guards on `t.timestamp !== null`; numeric engagement fields are always present
on processed tweets (`processTweetData` defaults them to 0), so the `|| 0`
reads in `DataOrganizer` are the identity on this type. The derived `createdAt`
ISO rendering of `timestamp` carries no extra information and is not modelled. -/
structure Tweet where
  id : String
  text : String
  username : String
  timestamp : Option Int
  isReply : Bool
  isRetweet : Bool
  likes : Nat
  retweetCount : Nat
  replies : Nat
  photos : List String
  videos : List String
  urls : List String
  hashtags : List String
  permanentUrl : String
  quotedStatusId : Option String
  inReplyToStatusId : Option String
deriving DecidableEq, Repr

/-- JS `x || d` for an optional numeric `x` with default `d`: both an absent
value and `0` are falsy. -/
def jsOrNat (x : Option Nat) (d : Nat) : Nat :=
  match x with
  | none => d
  | some n => if n = 0 then d else n

/-- Engagement score used by `createMergedCharacter`'s comparator:
`(t.likes || 0) + (t.retweetCount || 0)`. -/
def engagementOf (t : Tweet) : Nat :=
  t.likes + t.retweetCount

/-- Descending-engagement order of the merge comparator
`(a, b) => engagementB - engagementA` (stable ascending sort on a comparator
that ranks higher engagement first). -/
def engBefore (a b : Tweet) : Prop :=
  engagementOf b ≤ engagementOf a

instance : DecidableRel engBefore := fun a b =>
  inferInstanceAs (Decidable (engagementOf b ≤ engagementOf a))

/-- The per-account corpora concatenation in `createMergedCharacter`
(`allTweets.push(...tweets)` over `sourceAccounts`). Disk loading by
`getTweetsForAccount` is abstracted into the list of per-account corpora. -/
def combinedTweets (corpora : List (List Tweet)) : List Tweet :=
  corpora.flatten

/-- The optional retweet filter of `createMergedCharacter`
(`if (options.excludeRetweets) allTweets = allTweets.filter(t => !t.isRetweet)`). -/
def filteredTweets (corpora : List (List Tweet)) (policy : MergePolicy) : List Tweet :=
  if policy.excludeRetweets then
    (combinedTweets corpora).filter (fun t => !t.isRetweet)
  else combinedTweets corpora

/-- The ranking step of `createMergedCharacter`: a stable sort descending by
`(likes || 0) + (retweetCount || 0)`. The `rankingMethod` option is not
consulted by the source. -/
def rankedTweets (corpora : List (List Tweet)) (policy : MergePolicy) : List Tweet :=
  (filteredTweets corpora policy).insertionSort engBefore

/-- The tweet list persisted by `createMergedCharacter`:
`allTweets.slice(0, options.tweetsPerAccount || 50)` after ranking. -/
def mergedTweets (corpora : List (List Tweet)) (policy : MergePolicy) : List Tweet :=
  (rankedTweets corpora policy).take (jsOrNat policy.tweetsPerAccount 50)

/-- Modelled from the spec (§4.8 MergeRanker): the per-`rankingMethod` score —
TotalEngagement = likes+retweets, LikesOnly/RetweetsOnly = the single field.
The source `createMergedCharacter` has no such dispatch; this definition exists
only to compare the spec's description with the code's behavior. -/
def specScore (m : RankingMethod) (t : Tweet) : Nat :=
  match m with
  | .totalEngagement => t.likes + t.retweetCount
  | .likesOnly => t.likes
  | .retweetsOnly => t.retweetCount

/-- Descending order on the spec-side score. -/
def specBefore (m : RankingMethod) (a b : Tweet) : Prop :=
  specScore m b ≤ specScore m a

instance (m : RankingMethod) : DecidableRel (specBefore m) := fun a b =>
  inferInstanceAs (Decidable (specScore m b ≤ specScore m a))

/-- Modelled from the spec (§4.8 MergeRanker): "scores each Post per
`rankingMethod` …, sorts descending with stable ties" applied to the combined,
optionally retweet-filtered corpus. -/
def specRankedTweets (corpora : List (List Tweet)) (policy : MergePolicy) : List Tweet :=
  (filteredTweets corpora policy).insertionSort (specBefore policy.rankingMethod)

/-- Entry of `analytics.engagement.topTweets` (the projection built in
`generateAnalytics`). -/
structure TopTweet where
  id : String
  text : String
  likes : Nat
  retweetCount : Nat
  replies : Nat
  timestamp : Option Int
  url : String
deriving DecidableEq, Repr

/-- The `engagement` block of the analytics object. -/
structure Engagement where
  totalLikes : Nat
  totalRetweetCount : Nat
  totalReplies : Nat
  averageLikes : String
  topTweets : List TopTweet
deriving DecidableEq, Repr

/-- The `timeRange` block of the analytics object. -/
structure TimeRange where
  start : String
  end_ : String
deriving DecidableEq, Repr

/-- The `contentTypes` block of the analytics object. -/
structure ContentTypes where
  withImages : Nat
  withVideos : Nat
  withLinks : Nat
  textOnly : Nat
deriving DecidableEq, Repr

/-- The analytics object produced by `DataOrganizer.generateAnalytics`. -/
structure Analytics where
  totalTweets : Nat
  directTweets : Nat
  replies : Nat
  retweets : Nat
  engagement : Engagement
  timeRange : TimeRange
  contentTypes : ContentTypes
deriving DecidableEq, Repr

/-- Stand-in for the external `date-fns` call `format(new Date(millis), 'yyyy-MM-dd')`
on a valid date. The exact calendar rendering is external-library behavior; the
claims depend only on the result being a date string (never the literal "N/A")
and on `format` throwing on an invalid date, which is modelled at the call site. -/
def formatYMD (millis : Int) : String :=
  "ymd:" ++ toString millis

/-- JS `Number.prototype.toFixed(2)` for the exact rational `sum / cnt` with
`cnt ≠ 0`: round to the nearest hundredth, half away from zero (all quantities
nonnegative here). IEEE-double rounding of the division is approximated by
exact rational rounding; no claim depends on the rendered digits. -/
def toFixed2 (sum cnt : Nat) : String :=
  let cents := (200 * sum + cnt) / (2 * cnt)
  toString (cents / 100) ++ "." ++
    (if cents % 100 < 10 then "0" else "") ++ toString (cents % 100)

/-- The `averageLikes` computation of `generateAnalytics`:
`(sum / tweetsForEngagement.length).toFixed(2)`. The division is unguarded;
with an empty engagement set JS computes `0 / 0 = NaN` and
`NaN.toFixed(2) = "NaN"` (the numerator is a sum over the same empty set, so
the infinite case cannot arise). -/
def averageLikesOf (sum cnt : Nat) : String :=
  if cnt = 0 then "NaN" else toFixed2 sum cnt

/-- Ascending numeric order used on `validDates` (`.sort((a, b) => a - b)`). -/
def intAsc (a b : Int) : Prop := a ≤ b

instance : DecidableRel intAsc := fun a b => inferInstanceAs (Decidable (a ≤ b))

/-- Descending-likes order of the `topTweets` comparator
`(a, b) => (b.likes || 0) - (a.likes || 0)`. -/
def likesBefore (a b : Tweet) : Prop :=
  b.likes ≤ a.likes

instance : DecidableRel likesBefore := fun a b =>
  inferInstanceAs (Decidable (b.likes ≤ a.likes))

/-- Projection applied to the five leading engagement-sorted tweets in
`generateAnalytics`. -/
def toTopTweet (t : Tweet) : TopTweet :=
  { id := t.id
    text := t.text
    likes := t.likes
    retweetCount := t.retweetCount
    replies := t.replies
    timestamp := t.timestamp
    url := t.permanentUrl }

/-- The literal zero-value analytics object returned by `generateAnalytics`
when `tweets.length === 0`. -/
def zeroAnalytics : Analytics :=
  { totalTweets := 0
    directTweets := 0
    replies := 0
    retweets := 0
    engagement :=
      { totalLikes := 0
        totalRetweetCount := 0
        totalReplies := 0
        averageLikes := "0.00"
        topTweets := [] }
    timeRange := { start := "N/A", end_ := "N/A" }
    contentTypes := { withImages := 0, withVideos := 0, withLinks := 0, textOnly := 0 } }

/-- Embedding of `DataOrganizer.generateAnalytics`. On a non-empty input whose
every timestamp is invalid, `validDates` is empty, `new Date(validDates[0])` is
an Invalid Date, and the `date-fns` `format` call throws
`RangeError: Invalid time value`; this is the `Except.error` branch. On the
filtered `validTweets` every timestamp is present, so mapping `t.timestamp` and
keeping the present values coincide (`filterMap`). -/
def generateAnalytics (tweets : List Tweet) : Except String Analytics :=
  if tweets.length = 0 then
    .ok zeroAnalytics
  else
    let validTweets := tweets.filter (fun t => t.timestamp.isSome)
    let validDates := (validTweets.filterMap (fun t => t.timestamp)).insertionSort intAsc
    let tweetsForEngagement := tweets.filter (fun t => !t.isRetweet)
    match validDates with
    | [] => .error "Invalid time value"
    | d :: ds =>
      .ok
        { totalTweets := tweets.length
          directTweets := (tweets.filter (fun t => !t.isReply && !t.isRetweet)).length
          replies := (tweets.filter (fun t => t.isReply)).length
          retweets := (tweets.filter (fun t => t.isRetweet)).length
          engagement :=
            { totalLikes := (tweetsForEngagement.map (fun t => t.likes)).sum
              totalRetweetCount := (tweetsForEngagement.map (fun t => t.retweetCount)).sum
              totalReplies := (tweetsForEngagement.map (fun t => t.replies)).sum
              averageLikes :=
                averageLikesOf ((tweetsForEngagement.map (fun t => t.likes)).sum)
                  tweetsForEngagement.length
              topTweets :=
                ((tweetsForEngagement.insertionSort likesBefore).take 5).map toTopTweet }
          timeRange :=
            { start := formatYMD d
              end_ := formatYMD (ds.getLastD d) }
          contentTypes :=
            { withImages := (tweets.filter (fun t => t.photos.length > 0)).length
              withVideos := (tweets.filter (fun t => t.videos.length > 0)).length
              withLinks := (tweets.filter (fun t => t.urls.length > 0)).length
              textOnly :=
                (tweets.filter (fun t =>
                  t.photos.length = 0 && t.videos.length = 0 && t.urls.length = 0)).length } }

/-- A raw numeric-position value reaching `processTweetData`'s timestamp logic:
either an actual number or a truthy non-numeric value (such as a string like
"abc", which compares as `NaN` and fails the later `isNaN` check). Falsy values
(`undefined`, `null`, `0`, `NaN`, the empty string) are represented at the field
level by `Option.none` together with `RawNum.int 0`. -/
inductive RawNum where
  | int (n : Int)
  | nonNumeric
deriving DecidableEq, Repr

/-- A raw record yielded by the scraper iterator, as read by
`processTweetData`. `id := none` covers a falsy id (absent or empty).
`timeParsed` is the value of `tweet.timeParsed?.getTime()`: `none` when the
field is absent or the date invalid (`getTime()` then yields falsy `NaN`). -/
structure RawTweet where
  id : Option String
  timestamp : Option RawNum
  timeParsed : Option Int
  text : String
  username : Option String
  isReply : Bool
  isRetweet : Bool
  likes : Option Nat
  retweets : Option Nat
  replies : Option Nat
  photos : Option (List String)
  videos : Option (List String)
  urls : Option (List String)
  hashtags : Option (List String)
  permanentUrl : String
  quotedStatusId : Option String
  inReplyToStatusId : Option String
deriving DecidableEq, Repr

/-- JS falsiness of the modelled raw timestamp field (`!timestamp`):
absent/`NaN` (none) and `0` are falsy; a truthy non-numeric value is not. -/
def rawFalsy : Option RawNum → Bool
  | none => true
  | some (.int n) => n == 0
  | some .nonNumeric => false

/-- The timestamp derivation of `processTweetData`: start from `tweet.timestamp`;
if falsy, fall back to `tweet.timeParsed?.getTime()`; if still falsy the record
is dropped (`none`). -/
def deriveRawTimestamp (t : RawTweet) : Option RawNum :=
  let v := if rawFalsy t.timestamp then t.timeParsed.map RawNum.int else t.timestamp
  if rawFalsy v then none else v

/-- Embedding of `TwitterPipeline.processTweetData` (minus its
`this.stats` date-tracking side effect, modelled separately in the collection
loop). The surrounding `try`/`catch` returns `null` on any exception, so the
function is total; `selfUsername` is `this.username`, the fallback for a falsy
`tweet.username`. A numeric timestamp below 10^12 is rescaled from epoch-seconds
to milliseconds; a non-numeric truthy timestamp fails `isNaN` after comparing
false with 10^12; a rescaled value `≤ 0` is rejected. -/
def processTweetData (selfUsername : String) (t : RawTweet) : Option Tweet :=
  if t.id.isNone then none
  else
    match deriveRawTimestamp t with
    | none => none
    | some .nonNumeric => none
    | some (.int n) =>
      let ts := if n < 1000000000000 then n * 1000 else n
      if ts ≤ 0 then none
      else
        some
          { id := t.id.getD ""
            text := t.text
            username := t.username.getD selfUsername
            timestamp := some ts
            isReply := t.isReply
            isRetweet := t.isRetweet
            likes := t.likes.getD 0
            retweetCount := t.retweets.getD 0
            replies := t.replies.getD 0
            photos := t.photos.getD []
            videos := t.videos.getD []
            urls := t.urls.getD []
            hashtags := t.hashtags.getD []
            permanentUrl := t.permanentUrl
            quotedStatusId := t.quotedStatusId
            inReplyToStatusId := t.inReplyToStatusId }

/-- The per-run counters of `TwitterPipeline.stats` that the collection loop
touches (timing fields and date trackers omitted; no claim reads them). -/
structure Stats where
  requestCount : Nat
  rateLimitHits : Nat
  retriesCount : Nat
  uniqueTweets : Nat
  fallbackCount : Nat
deriving DecidableEq, Repr

/-- One step of the async iterator driving `collectTweets`: either a yielded
raw record, or the iterator throwing (which is how the scraper library surfaces
a rate limit or any other fetch failure). -/
inductive FetchItem where
  | item (r : RawTweet)
  | failure
deriving DecidableEq, Repr

/-- Embedding of the `for await` loop of `TwitterPipeline.collectTweets`. The
tweet filter (`TweetFilter.shouldIncludeTweet`, whose source is not part of
this repository) is an opaque predicate parameter. When the iterator throws,
the `catch` block logs and rethrows: the error is terminal, the collected list
is discarded, and no stats counter is touched — there is no retry, no
`rateLimitHits` increment, and no fallback escalation in this loop. -/
def collectLoop (selfUsername : String) (filt : RawTweet → Bool) :
    List FetchItem → Stats → List Tweet → Except Unit (List Tweet) × Stats
  | [], st, acc => (.ok acc, st)
  | .failure :: _, st, _ => (.error (), st)
  | .item r :: rest, st, acc =>
    let st1 : Stats := { st with requestCount := st.requestCount + 1 }
    if filt r then
      match processTweetData selfUsername r with
      | some p =>
        collectLoop selfUsername filt rest
          { st1 with uniqueTweets := st1.uniqueTweets + 1 } (acc ++ [p])
      | none => collectLoop selfUsername filt rest st1 acc
    else collectLoop selfUsername filt rest st1 acc

/-- Embedding of `TwitterPipeline.collectTweets` over a modelled iterator. -/
def collectTweets (selfUsername : String) (filt : RawTweet → Bool)
    (stream : List FetchItem) (st : Stats) : Except Unit (List Tweet) × Stats :=
  collectLoop selfUsername filt stream st []

/-- A record written to `meta/progress.json`; only the `progress.completed`
flag is claim-relevant (endTime, fallback and rate-limit counters omitted). -/
structure ProgressRecord where
  completed : Bool
deriving DecidableEq, Repr

/-- The observable session state touched by the two cleanup paths: whether the
authenticated scraper session and the fallback cluster are open, and the
history of progress records written to `meta/progress.json`. -/
structure RunState where
  scraperActive : Bool
  clusterActive : Bool
  progressLog : List ProgressRecord
deriving DecidableEq, Repr

/-- Embedding of the SIGINT/SIGTERM handler `cleanup` in `src/twitter/index.js`:
it logs, attempts `pipeline.scraper.logout()` (failures only logged), and calls
`process.exit(0)`. It writes no progress record and never touches the fallback
cluster. -/
def indexSignalCleanup (s : RunState) : RunState :=
  { s with scraperActive := false }

/-- Embedding of `TwitterPipeline.cleanup`: logout, close the fallback cluster
if open, then `saveProgress(..., { completed: true, ... })`, which appends a
terminal progress record; on an internal error the `catch` still writes a
`completed: true` record. Both paths append exactly one completed record. -/
def pipelineCleanup (s : RunState) : RunState :=
  { s with
    scraperActive := false
    clusterActive := false
    progressLog := s.progressLog ++ [{ completed := true }] }

/-- Whitespace class of the JS regex `\s` (ASCII part; the Unicode space
separators behave identically for every property proved here). -/
def isWsChar (c : Char) : Bool :=
  c = ' ' || c = '\t' || c = '\n' || c = '\r' || c = '\u000B' || c = '\u000C'

/-- Character list of the scheme alternative "https://". -/
def urlPfxS : List Char := "https://".toList

/-- Character list of the scheme alternative "http://". -/
def urlPfxH : List Char := "http://".toList

/-- Character list of the alternative "www.". -/
def urlPfxW : List Char := "www.".toList

/-- Drop an expected literal prefix, or fail. -/
def dropPfx (p t : List Char) : Option (List Char) :=
  if p.isPrefixOf t then some (t.drop p.length) else none

/-- After a matched URL scheme: the regex tail `[^\s]+` needs at least one
non-whitespace character and then greedily consumes the maximal run; returns
what follows the match. -/
def urlTail (r : List Char) : Option (List Char) :=
  match r with
  | [] => none
  | c :: _ => if isWsChar c then none else some (r.dropWhile (fun d => !isWsChar d))

/-- Leftmost-anchored match of the URL regex `(?:https?:\/\/|www\.)[^\s]+` at
the head of `t`: on success, returns the remainder after the greedy match. The
three alternatives have pairwise incompatible prefixes, so trying them in order
is exact. -/
def urlMatchAt (t : List Char) : Option (List Char) :=
  match dropPfx urlPfxS t with
  | some r => urlTail r
  | none =>
    match dropPfx urlPfxH t with
    | some r => urlTail r
    | none =>
      match dropPfx urlPfxW t with
      | some r => urlTail r
      | none => none

/-- Fuelled scanner for the global replace `.replace(/(?:https?:\/\/|www\.)[^\s]+/g, '')`:
at each position, strip a match and resume after it, otherwise emit the
character and advance. Fuel `≥ t.length` suffices, since a match consumes at
least one character. -/
def stripUrlsF : Nat → List Char → List Char
  | 0, _ => []
  | _ + 1, [] => []
  | fuel + 1, c :: rest =>
    match urlMatchAt (c :: rest) with
    | some r => stripUrlsF fuel r
    | none => c :: stripUrlsF fuel rest

/-- The URL-removal pass. -/
def stripUrls (t : List Char) : List Char :=
  stripUrlsF t.length t

/-- Leftmost-anchored match of the hashtag regex `#[^\s#]+` at the head of `t`:
a hash sign followed by at least one character that is neither whitespace nor
another hash sign, greedily extended; returns the remainder after the match. -/
def hashMatchAt (t : List Char) : Option (List Char) :=
  match t with
  | c :: d :: rest =>
    if c = '#' then
      if isWsChar d || d = '#' then none
      else some ((d :: rest).dropWhile (fun e => !(isWsChar e || e = '#')))
    else none
  | _ => none

/-- Fuelled scanner for the global replace `.replace(/#[^\s#]+/g, '')`. -/
def stripHashtagsF : Nat → List Char → List Char
  | 0, _ => []
  | _ + 1, [] => []
  | fuel + 1, c :: rest =>
    match hashMatchAt (c :: rest) with
    | some r => stripHashtagsF fuel r
    | none => c :: stripHashtagsF fuel rest

/-- The hashtag-removal pass. -/
def stripHashtags (t : List Char) : List Char :=
  stripHashtagsF t.length t

/-- Fuelled scanner for `.replace(/\s+/g, ' ')`: every maximal whitespace run
becomes a single space. -/
def collapseWsF : Nat → List Char → List Char
  | 0, _ => []
  | _ + 1, [] => []
  | fuel + 1, c :: rest =>
    if isWsChar c then ' ' :: collapseWsF fuel (rest.dropWhile isWsChar)
    else c :: collapseWsF fuel rest

/-- The whitespace-collapsing pass. -/
def collapseWs (t : List Char) : List Char :=
  collapseWsF t.length t

/-- JS `String.prototype.trim()`: drop leading and trailing whitespace. -/
def trimWs (t : List Char) : List Char :=
  ((t.dropWhile isWsChar).reverse.dropWhile isWsChar).reverse

/-- The `cleanText` computation of `generateFinetuningData`: remove URLs, then
hashtags, collapse whitespace runs to single spaces, and trim. -/
def cleanText (s : String) : String :=
  String.mk (trimWs (collapseWs (stripHashtags (stripUrls s.data))))

/-- One line of the fine-tuning JSONL output (`{ text: cleanText }`). -/
structure FinetuneEntry where
  text : String
deriving DecidableEq, Repr

/-- Embedding of `DataOrganizer.generateFinetuningData`: keep non-retweets with
truthy (non-empty) text and non-null timestamp, clean the text, and drop
entries whose cleaned text is empty. The source's trailing
`typeof entry.text === 'string' && entry.text.length > 0` re-check is subsumed
by the emptiness test, and the `map`/`filter` pair is fused into `filterMap`. -/
def generateFinetuningData (tweets : List Tweet) : List FinetuneEntry :=
  (tweets.filter (fun t => !t.isRetweet && !t.text.isEmpty && t.timestamp.isSome)).filterMap
    (fun t =>
      let c := cleanText t.text
      if c.isEmpty then none else some { text := c })

example : cleanText "hello   #tag world http://x.co/a done" = "hello world done" := by decide

example : cleanText "www.example.com" = "" := by decide

example : cleanText "  a  b  " = "a b" := by decide

section SortHelpers

variable {α : Type _}

/-- Stability of the stable-sort model, phrased per score class: restricting the
sorted list to the elements of one score class reproduces those elements in
input order. -/
theorem insertionSort_filter_eq (r : α → α → Prop) [DecidableRel r] (p : α → Bool)
    (hsym : ∀ a b, p a = true → p b = true → r a b) (l : List α) :
    (l.insertionSort r).filter p = l.filter p := by
  have hpw : (l.filter p).Pairwise r := by
    apply List.pairwise_of_forall_mem_list
    intro a ha b hb
    exact hsym a b (List.of_mem_filter ha) (List.of_mem_filter hb)
  have h2 : l.filter p <+ l.insertionSort r :=
    List.sublist_insertionSort hpw (List.filter_sublist l)
  have h3 : l.filter p <+ (l.insertionSort r).filter p := by
    have h4 := h2.filter p
    rwa [List.filter_filter, show (fun a => p a && p a) = p from funext fun a => Bool.and_self _] at h4
  have hlen : ((l.insertionSort r).filter p).length = (l.filter p).length :=
    ((List.perm_insertionSort r l).filter p).length_eq
  exact (h3.eq_of_length hlen.symm).symm

/-- Filtering a `take`-prefix yields a prefix of the filtered list. -/
theorem filter_take_prefix (p : α → Bool) (n : Nat) (l : List α) :
    (l.take n).filter p <+: l.filter p :=
  ⟨(l.drop n).filter p, by rw [← List.filter_append, List.take_append_drop]⟩

end SortHelpers

instance : IsTotal Tweet engBefore :=
  ⟨fun a b => Nat.le_total (engagementOf b) (engagementOf a)⟩

instance : IsTrans Tweet engBefore :=
  ⟨fun _ _ _ hab hbc => le_trans hbc hab⟩

instance : IsTotal Tweet likesBefore :=
  ⟨fun a b => Nat.le_total b.likes a.likes⟩

instance : IsTrans Tweet likesBefore :=
  ⟨fun _ _ _ hab hbc => le_trans hbc hab⟩

instance : IsTotal Int intAsc := ⟨fun a b => Int.le_total a b⟩

instance : IsTrans Int intAsc := ⟨fun _ _ _ hab hbc => le_trans hab hbc⟩

/-- Fixed sample tweet constructor for concrete inputs. -/
def mkTweet (id : String) (likes rt : Nat) (isRT : Bool) (ts : Option Int) : Tweet :=
  { id := id, text := "t", username := "u", timestamp := ts, isReply := false,
    isRetweet := isRT, likes := likes, retweetCount := rt, replies := 0,
    photos := [], videos := [], urls := [], hashtags := [], permanentUrl := "p",
    quotedStatusId := none, inReplyToStatusId := none }

/-- C9: analyze applied to the empty post list returns the zero-value result:
totalTweets 0, averageLikes "0.00", both timeRange bounds "N/A", topTweets [],
and all per-type and content-type counts 0. -/
theorem claim9_analyze_empty :
    generateAnalytics [] = .ok zeroAnalytics ∧
    zeroAnalytics.totalTweets = 0 ∧
    zeroAnalytics.directTweets = 0 ∧
    zeroAnalytics.replies = 0 ∧
    zeroAnalytics.retweets = 0 ∧
    zeroAnalytics.engagement.totalLikes = 0 ∧
    zeroAnalytics.engagement.totalRetweetCount = 0 ∧
    zeroAnalytics.engagement.totalReplies = 0 ∧
    zeroAnalytics.engagement.averageLikes = "0.00" ∧
    zeroAnalytics.engagement.topTweets = [] ∧
    zeroAnalytics.timeRange.start = "N/A" ∧
    zeroAnalytics.timeRange.end_ = "N/A" ∧
    zeroAnalytics.contentTypes.withImages = 0 ∧
    zeroAnalytics.contentTypes.withVideos = 0 ∧
    zeroAnalytics.contentTypes.withLinks = 0 ∧
    zeroAnalytics.contentTypes.textOnly = 0 :=
  ⟨rfl, rfl, rfl, rfl, rfl, rfl, rfl, rfl, rfl, rfl, rfl, rfl, rfl, rfl, rfl, rfl⟩

/-- A non-retweet post whose timestamp is null. -/
def c4BadTweet : Tweet := mkTweet "bad" 0 0 false none

/-- C4 (code bug): on a non-empty input containing no valid-timestamp post,
`generateAnalytics` does not return the "N/A" time range — `validDates` is
empty, `new Date(validDates[0])` is an Invalid Date, and the `date-fns`
`format` call raises `RangeError: Invalid time value`, modelled by the error
result. The spec's totality and "N/A" bounds hold only for the empty list. -/
theorem claim4_invalid_timestamps_throw :
    generateAnalytics [c4BadTweet] = .error "Invalid time value" := rfl

/-- Merge policy requesting a cap of zero tweets. -/
def c3Policy : MergePolicy := ⟨false, some 0, RankingMethod.totalEngagement⟩

/-- A plain post used in the C3 counterexample. -/
def c3Tweet : Tweet := mkTweet "one" 1 0 false (some 1)

/-- C3 counterexample: for tweetsPerAccount = 0 (an integer ≥ 0) the merge does
not truncate to min(0, 1) = 0 posts — JS `options.tweetsPerAccount || 50`
treats 0 as falsy and substitutes the default cap 50, so the single post
survives. -/
theorem claim3_cex :
    ¬ (mergedTweets [[c3Tweet]] c3Policy).length
        = min (c3Policy.tweetsPerAccount.getD 0) (filteredTweets [[c3Tweet]] c3Policy).length := by
  decide

/-- C3 amended: for every merge policy whose tweetsPerAccount is an integer
n ≥ 1, the merge truncates the combined ranked list to exactly
min(n, combined length), applied once as a single global cap over all accounts
together; a cap of 0 (or an absent cap) instead falls back to the default 50. -/
theorem claim3_amended (corpora : List (List Tweet)) (policy : MergePolicy) (n : Nat)
    (hn : policy.tweetsPerAccount = some n) (h1 : 1 ≤ n) :
    (mergedTweets corpora policy).length
      = min n (filteredTweets corpora policy).length := by
  have hne : n ≠ 0 := by omega
  unfold mergedTweets rankedTweets
  rw [List.length_take, List.length_insertionSort]
  unfold jsOrNat
  rw [hn]
  simp [hne]

/-- Witness for the amended C3 at a concrete input: cap 1 over two accounts
with one post each leaves exactly min(1, 2) = 1 post. -/
theorem claim3_witness :
    (mergedTweets [[c3Tweet], [c3Tweet]] ⟨false, some 1, RankingMethod.totalEngagement⟩).length
      = min 1 (filteredTweets [[c3Tweet], [c3Tweet]]
          ⟨false, some 1, RankingMethod.totalEngagement⟩).length :=
  claim3_amended _ _ 1 rfl (by decide)

/-- Post with high likes, no retweets. -/
def c1A : Tweet := mkTweet "a" 10 0 false (some 1)

/-- Post with low likes but high retweet count. -/
def c1B : Tweet := mkTweet "b" 5 100 false (some 1)

/-- A policy selecting the LikesOnly ranking. -/
def c1Policy : MergePolicy := ⟨false, some 10, RankingMethod.likesOnly⟩

/-- C1 counterexample: under a LikesOnly policy the code still ranks by
likes+retweets — the ranked list differs from the spec-side per-rankingMethod
ranking (code puts the 105-engagement post first; LikesOnly would put the
10-likes post first). -/
theorem claim1_cex :
    rankedTweets [[c1A, c1B]] c1Policy ≠ specRankedTweets [[c1A, c1B]] c1Policy := by
  decide

/-- C1 amended: the merge scores every post as likes+retweetCount regardless of
the policy's rankingMethod, and sorts the combined (optionally
retweet-filtered) list descending by that score with stable ties: the ranked
list is sorted under `engBefore`, is a permutation of the combined list, each
engagement class appears in input order, and changing rankingMethod never
changes the result. -/
theorem claim1_amended (corpora : List (List Tweet)) (policy : MergePolicy) :
    (rankedTweets corpora policy).Pairwise engBefore ∧
    rankedTweets corpora policy ~ filteredTweets corpora policy ∧
    (∀ k, (rankedTweets corpora policy).filter (fun t => engagementOf t == k)
        = (filteredTweets corpora policy).filter (fun t => engagementOf t == k)) ∧
    (∀ m, rankedTweets corpora { policy with rankingMethod := m }
        = rankedTweets corpora policy) := by
  refine ⟨?_, List.perm_insertionSort _ _, ?_, fun m => rfl⟩
  · exact List.sorted_insertionSort engBefore (filteredTweets corpora policy)
  · intro k
    apply insertionSort_filter_eq
    intro a b ha hb
    have ha' : engagementOf a = k := by simpa using ha
    have hb' : engagementOf b = k := by simpa using hb
    unfold engBefore
    omega

/-- All-zero statistics at the start of a run. -/
def stats0 : Stats := ⟨0, 0, 0, 0, 0⟩

/-- C2 counterexample: when the very first fetch signals a rate limit, the
collector does not increment rateLimitHits — the error is rethrown immediately,
so the claimed increment (and everything downstream of it) never happens. -/
theorem claim2_cex :
    ¬ (collectTweets "user" (fun _ => true) [FetchItem.failure] stats0).2.rateLimitHits
        = stats0.rateLimitHits + 1 := by
  decide

/-- Helper for the amended C2: the collection loop maps any stream containing a
failure to an immediate terminal error, leaving the rate-limit, retry and
fallback counters untouched; only requestCount advances, once per record
yielded before the failure. -/
theorem collectLoop_failure (u : String) (filt : RawTweet → Bool) :
    ∀ (pre suf : List FetchItem) (st : Stats) (acc : List Tweet),
      (∀ x ∈ pre, x ≠ FetchItem.failure) →
      (collectLoop u filt (pre ++ FetchItem.failure :: suf) st acc).1 = .error () ∧
      (collectLoop u filt (pre ++ FetchItem.failure :: suf) st acc).2.rateLimitHits
        = st.rateLimitHits ∧
      (collectLoop u filt (pre ++ FetchItem.failure :: suf) st acc).2.retriesCount
        = st.retriesCount ∧
      (collectLoop u filt (pre ++ FetchItem.failure :: suf) st acc).2.fallbackCount
        = st.fallbackCount ∧
      (collectLoop u filt (pre ++ FetchItem.failure :: suf) st acc).2.requestCount
        = st.requestCount + (pre.filter (fun x => x matches FetchItem.item _)).length := by
  intro pre
  induction pre with
  | nil =>
    intro suf st acc _
    exact ⟨rfl, rfl, rfl, rfl, rfl⟩
  | cons x xs ih =>
    intro suf st acc h
    have hx : x ≠ FetchItem.failure := h x (List.mem_cons_self x xs)
    have hxs : ∀ y ∈ xs, y ≠ FetchItem.failure := fun y hy => h y (List.mem_cons_of_mem x hy)
    cases x with
    | failure => exact absurd rfl hx
    | item r =>
      simp only [List.cons_append, collectLoop]
      by_cases hf : filt r
      · simp only [hf, if_true]
        cases hp : processTweetData u r with
        | some p =>
          have := ih suf { st with requestCount := st.requestCount + 1, uniqueTweets := st.uniqueTweets + 1 } (acc ++ [p]) hxs
          simpa [List.filter, Nat.add_comm, Nat.add_assoc, Nat.add_left_comm] using this
        | none =>
          have := ih suf { st with requestCount := st.requestCount + 1 } acc hxs
          simpa [List.filter, Nat.add_comm, Nat.add_assoc, Nat.add_left_comm] using this
      · simp only [hf, if_false]
        have := ih suf { st with requestCount := st.requestCount + 1 } acc hxs
        simpa [List.filter, Nat.add_comm, Nat.add_assoc, Nat.add_left_comm] using this

/-- C2 amended: `collectTweets` implements no rate-limit handling of its own.
Config defaults exist (maxRetries 5, retryDelay 5000, rateLimitThreshold 3) but
are unused by the loop: when a fetch signals a rate limit (the iterator
throwing), the error is logged and rethrown immediately — collection fails
terminally, rateLimitHits, retriesCount and fallbackCount are left untouched,
no retry happens, and the fallback agent is never engaged (handling is
delegated to the scraper library). -/
theorem claim2_amended (u : String) (filt : RawTweet → Bool) (pre suf : List FetchItem)
    (st : Stats) (hpre : ∀ x ∈ pre, x ≠ FetchItem.failure) :
    (collectTweets u filt (pre ++ FetchItem.failure :: suf) st).1 = .error () ∧
    (collectTweets u filt (pre ++ FetchItem.failure :: suf) st).2.rateLimitHits
      = st.rateLimitHits ∧
    (collectTweets u filt (pre ++ FetchItem.failure :: suf) st).2.retriesCount
      = st.retriesCount ∧
    (collectTweets u filt (pre ++ FetchItem.failure :: suf) st).2.fallbackCount
      = st.fallbackCount :=
  have h := collectLoop_failure u filt pre suf st [] hpre
  ⟨h.1, h.2.1, h.2.2.1, h.2.2.2.1⟩

/-- A well-formed raw record yielded before the failing fetch. -/
def c2Raw : RawTweet :=
  { id := some "42", timestamp := some (.int 1700000000000), timeParsed := none,
    text := "hi", username := some "u", isReply := false, isRetweet := false,
    likes := some 1, retweets := some 2, replies := some 0, photos := none,
    videos := none, urls := none, hashtags := none, permanentUrl := "p",
    quotedStatusId := none, inReplyToStatusId := none }

/-- Witness for the amended C2 at a concrete stream: one good record, then a
rate-limit failure. -/
theorem claim2_witness :
    (collectTweets "user" (fun _ => true) ([FetchItem.item c2Raw] ++ FetchItem.failure :: []) stats0).1
      = .error () ∧
    (collectTweets "user" (fun _ => true) ([FetchItem.item c2Raw] ++ FetchItem.failure :: []) stats0).2.rateLimitHits
      = stats0.rateLimitHits ∧
    (collectTweets "user" (fun _ => true) ([FetchItem.item c2Raw] ++ FetchItem.failure :: []) stats0).2.retriesCount
      = stats0.retriesCount ∧
    (collectTweets "user" (fun _ => true) ([FetchItem.item c2Raw] ++ FetchItem.failure :: []) stats0).2.fallbackCount
      = stats0.fallbackCount :=
  claim2_amended "user" (fun _ => true) [FetchItem.item c2Raw] [] stats0 (by decide)

/-- A mid-run state with both sessions open and nothing yet written. -/
def runState0 : RunState := ⟨true, true, []⟩

/-- C8 counterexample: the termination-signal handler in `index.js` writes no
progress record at all — after it runs, the progress log is exactly as before,
so no terminal record with completed = true was produced by the signal path. -/
theorem claim8_cex :
    ¬ ∃ rec : ProgressRecord,
        (indexSignalCleanup runState0).progressLog = runState0.progressLog ++ [rec] ∧
        rec.completed = true := by
  rintro ⟨rec, h, -⟩
  simp [indexSignalCleanup, runState0] at h

/-- C8 amended: the signal handler only releases the authenticated scraper
session and exits; it writes no progress record and leaves the fallback
cluster untouched. A terminal progress record with completed = true is written
by `TwitterPipeline.cleanup` — which runs on pipeline failure, not on the
termination signal — and that path also closes the fallback session. -/
theorem claim8_amended (s : RunState) :
    (indexSignalCleanup s).progressLog = s.progressLog ∧
    (indexSignalCleanup s).scraperActive = false ∧
    (indexSignalCleanup s).clusterActive = s.clusterActive ∧
    (∃ rec : ProgressRecord, (pipelineCleanup s).progressLog = s.progressLog ++ [rec] ∧
      rec.completed = true) ∧
    (pipelineCleanup s).scraperActive = false ∧
    (pipelineCleanup s).clusterActive = false :=
  ⟨rfl, rfl, rfl, ⟨{ completed := true }, rfl, rfl⟩, rfl, rfl⟩

/-- C5: the normalization result is null exactly when the id is falsy, no
timestamp is derivable (both the epoch field and the parsed-date fallback are
falsy), the derived value is non-numeric, or it is ≤ 0; a returned post carries
the derived timestamp rescaled by 1000 when below 10^12, and every list-valued
field that is absent in the raw record becomes the empty list. Totality (the
source's catch-all returning null) is by construction of the embedding. -/
theorem claim5_normalize (u : String) (t : RawTweet) :
    (processTweetData u t = none ↔
      t.id = none ∨ deriveRawTimestamp t = none ∨
      deriveRawTimestamp t = some RawNum.nonNumeric ∨
      ∃ n : Int, deriveRawTimestamp t = some (RawNum.int n) ∧ n ≤ 0) ∧
    (∀ p : Tweet, processTweetData u t = some p →
      (∃ n : Int, deriveRawTimestamp t = some (RawNum.int n) ∧ 0 < n ∧
        p.timestamp = some (if n < 1000000000000 then n * 1000 else n)) ∧
      (t.photos = none → p.photos = []) ∧
      (t.videos = none → p.videos = []) ∧
      (t.urls = none → p.urls = []) ∧
      (t.hashtags = none → p.hashtags = [])) := by
  rcases hid : t.id with _ | idv
  · have hnone : processTweetData u t = none := by
      simp [processTweetData, hid]
    refine ⟨?_, ?_⟩
    · rw [hnone]
      simp [hid]
    · intro p hp
      rw [hnone] at hp
      cases hp
  · have hI : t.id.isNone = false := by rw [hid]; rfl
    rcases hd : deriveRawTimestamp t with _ | rn
    · have hnone : processTweetData u t = none := by
        simp [processTweetData, hI, hd]
      refine ⟨?_, ?_⟩
      · rw [hnone]
        simp [hid, hd]
      · intro p hp
        rw [hnone] at hp
        cases hp
    · cases rn with
      | nonNumeric =>
        have hnone : processTweetData u t = none := by
          simp [processTweetData, hI, hd]
        refine ⟨?_, ?_⟩
        · rw [hnone]
          simp [hid, hd]
        · intro p hp
          rw [hnone] at hp
          cases hp
      | int n =>
        by_cases hts : (if n < 1000000000000 then n * 1000 else n) ≤ 0
        · have hn0 : n ≤ 0 := by
            by_cases hlt : n < 1000000000000 <;> simp [hlt] at hts <;> omega
          have hnone : processTweetData u t = none := by
            simp [processTweetData, hI, hd, hts]
          refine ⟨?_, ?_⟩
          · rw [hnone]
            simp only [hid, hd, true_iff]
            exact Or.inr (Or.inr (Or.inr ⟨n, rfl, hn0⟩))
          · intro p hp
            rw [hnone] at hp
            cases hp
        · have hpos : 0 < n := by
            by_cases hlt : n < 1000000000000 <;> simp [hlt] at hts ⊢ <;> omega
          have hsome : processTweetData u t
              = some
                { id := t.id.getD "", text := t.text, username := t.username.getD u,
                  timestamp := some (if n < 1000000000000 then n * 1000 else n),
                  isReply := t.isReply, isRetweet := t.isRetweet,
                  likes := t.likes.getD 0, retweetCount := t.retweets.getD 0,
                  replies := t.replies.getD 0, photos := t.photos.getD [],
                  videos := t.videos.getD [], urls := t.urls.getD [],
                  hashtags := t.hashtags.getD [], permanentUrl := t.permanentUrl,
                  quotedStatusId := t.quotedStatusId,
                  inReplyToStatusId := t.inReplyToStatusId } := by
            simp [processTweetData, hI, hd, hts]
          refine ⟨?_, ?_⟩
          · rw [hsome]
            constructor
            · intro h
              cases h
            · rintro (h | h | h | ⟨m, hm, hm0⟩)
              · cases h
              · cases h
              · cases h
              · injection hm with hm
                injection hm with hm
                omega
          · intro p hp
            rw [hsome] at hp
            injection hp with hp
            subst hp
            refine ⟨⟨n, rfl, hpos, rfl⟩, ?_, ?_, ?_, ?_⟩ <;> intro hnone <;> simp [hnone]

/-- A raw record with an epoch-seconds timestamp and absent list fields. -/
def c5Raw : RawTweet :=
  { id := some "1", timestamp := some (.int 5), timeParsed := none, text := "x",
    username := none, isReply := false, isRetweet := false, likes := none,
    retweets := none, replies := none, photos := none, videos := none,
    urls := none, hashtags := none, permanentUrl := "p",
    quotedStatusId := none, inReplyToStatusId := none }

/-- Witness for C5 at a concrete raw record: the epoch-seconds value 5 is
rescaled to 5000 and the absent photos/hashtags fields become empty lists. -/
theorem claim5_witness :
    ∃ p : Tweet, processTweetData "me" c5Raw = some p ∧
      p.timestamp = some 5000 ∧ p.photos = [] ∧ p.hashtags = [] := by
  refine ⟨_, rfl, rfl, ?_, ?_⟩
  · exact ((claim5_normalize "me" c5Raw).2 _ rfl).2.1 rfl
  · exact ((claim5_normalize "me" c5Raw).2 _ rfl).2.2.2.2 rfl

/-- C6: whenever analyze returns, topTweets has length min(5, #non-retweets),
its entries are projections of non-retweet posts, it is sorted non-increasing
in likes, and ties preserve input order (each likes class of the output is a
prefix of that class in the input). -/
theorem claim6_topTweets (posts : List Tweet) (a : Analytics)
    (h : generateAnalytics posts = .ok a) :
    a.engagement.topTweets.length = min 5 (posts.filter (fun t => !t.isRetweet)).length ∧
    (∀ e ∈ a.engagement.topTweets,
      ∃ t, t ∈ posts ∧ t.isRetweet = false ∧ e = toTopTweet t) ∧
    a.engagement.topTweets.Pairwise (fun x y => y.likes ≤ x.likes) ∧
    (∀ k, a.engagement.topTweets.filter (fun e => e.likes == k) <+:
      ((posts.filter (fun t => !t.isRetweet)).filter (fun t => t.likes == k)).map toTopTweet) := by
  by_cases hlen : posts.length = 0
  · have hp : posts = [] := List.length_eq_zero.mp hlen
    subst hp
    have hz : zeroAnalytics = a := by
      rw [show generateAnalytics [] = Except.ok zeroAnalytics from rfl] at h
      injection h
    have hT : a.engagement.topTweets = [] := by rw [← hz]; rfl
    refine ⟨?_, ?_, ?_, ?_⟩
    · rw [hT]; rfl
    · intro e he; rw [hT] at he; cases he
    · rw [hT]; exact List.Pairwise.nil
    · intro k; rw [hT]; exact List.nil_prefix
  · simp only [generateAnalytics] at h
    rw [if_neg hlen] at h
    split at h
    · cases h
    · rename_i d ds hL
      have hT : a.engagement.topTweets
          = (((posts.filter (fun t => !t.isRetweet)).insertionSort likesBefore).take 5).map
              toTopTweet := by
        injection h with h
        rw [← h]
      refine ⟨?_, ?_, ?_, ?_⟩
      · rw [hT]
        rw [List.length_map, List.length_take, List.length_insertionSort]
      · rw [hT]
        intro e he
        rw [List.mem_map] at he
        obtain ⟨t, ht, rfl⟩ := he
        have ht2 : t ∈ (posts.filter (fun t => !t.isRetweet)).insertionSort likesBefore :=
          List.mem_of_mem_take ht
        rw [List.mem_insertionSort] at ht2
        have ht3 := List.mem_filter.mp ht2
        exact ⟨t, ht3.1, by simpa using ht3.2, rfl⟩
      · rw [hT, List.pairwise_map]
        exact List.Pairwise.sublist (List.take_sublist 5 _)
          (List.sorted_insertionSort likesBefore (posts.filter (fun t => !t.isRetweet)))
      · intro k
        rw [hT, List.filter_map]
        apply List.IsPrefix.map
        have h1 := filter_take_prefix ((fun e => e.likes == k) ∘ toTopTweet) 5
          ((posts.filter (fun t => !t.isRetweet)).insertionSort likesBefore)
        have h2 : ((posts.filter (fun t => !t.isRetweet)).insertionSort likesBefore).filter
              ((fun e => e.likes == k) ∘ toTopTweet)
            = (posts.filter (fun t => !t.isRetweet)).filter
              ((fun e => e.likes == k) ∘ toTopTweet) := by
          apply insertionSort_filter_eq
          intro x y hx hy
          have hx' : x.likes = k := by simpa [Function.comp, toTopTweet] using hx
          have hy' : y.likes = k := by simpa [Function.comp, toTopTweet] using hy
          unfold likesBefore
          omega
        rw [h2] at h1
        exact h1

/-- A single valid non-retweet post for the C6 witness. -/
def c6Post : Tweet := mkTweet "x" 7 0 false (some 5)

/-- Witness for C6 at a concrete input with one non-retweet post. -/
theorem claim6_witness :
    ∃ a : Analytics, generateAnalytics [c6Post] = .ok a ∧
      a.engagement.topTweets.length
        = min 5 ([c6Post].filter (fun t => !t.isRetweet)).length :=
  ⟨_, rfl, (claim6_topTweets [c6Post] _ rfl).1⟩

/-- A retweet with a null timestamp. -/
def c10Bad : Tweet := mkTweet "r" 3 4 true none

/-- C10 counterexample: for the non-empty all-retweet list `[c10Bad]` (whose
only timestamp is null) analyze does not return — `validDates` is empty and the
time-range formatting raises — so "returns without raising … averageLikes NaN"
fails as stated. -/
theorem claim10_cex :
    ¬ (∀ posts : List Tweet, posts ≠ [] → (∀ t ∈ posts, t.isRetweet = true) →
        ∃ a : Analytics, generateAnalytics posts = .ok a ∧
          a.engagement.averageLikes = "NaN") := by
  intro hclaim
  obtain ⟨a, ha, -⟩ := hclaim [c10Bad] (by simp) (by simp [c10Bad, mkTweet])
  rw [show generateAnalytics [c10Bad] = Except.error "Invalid time value" from rfl] at ha
  cases ha

/-- C10 amended: for every non-empty all-retweet post list containing at least
one valid timestamp, analyze returns without raising, with engagement totals 0
and topTweets empty, and averageLikes is the string "NaN" rather than "0.00"
(the average divides by the count of non-retweet posts, which is zero, and JS
renders 0/0 via toFixed as "NaN"). -/
theorem claim10_amended (posts : List Tweet) (hne : posts ≠ [])
    (hrt : ∀ t ∈ posts, t.isRetweet = true)
    (hts : ∃ t ∈ posts, t.timestamp.isSome) :
    ∃ a : Analytics, generateAnalytics posts = .ok a ∧
      a.engagement.averageLikes = "NaN" ∧
      a.engagement.totalLikes = 0 ∧
      a.engagement.totalRetweetCount = 0 ∧
      a.engagement.totalReplies = 0 ∧
      a.engagement.topTweets = [] := by
  have hlen : ¬ posts.length = 0 := by
    simpa [List.length_eq_zero] using hne
  have heng : posts.filter (fun t => !t.isRetweet) = [] := by
    rw [List.filter_eq_nil_iff]
    intro t ht
    simp [hrt t ht]
  have hvne : (posts.filter (fun t => t.timestamp.isSome)).filterMap (fun t => t.timestamp)
      ≠ [] := by
    obtain ⟨t, ht, hsome⟩ := hts
    obtain ⟨v, hv⟩ := Option.isSome_iff_exists.mp hsome
    intro hnil
    have hmem : v ∈ (posts.filter (fun t => t.timestamp.isSome)).filterMap
        (fun t => t.timestamp) := by
      rw [List.mem_filterMap]
      exact ⟨t, List.mem_filter.mpr ⟨ht, hsome⟩, hv⟩
    rw [hnil] at hmem
    cases hmem
  have hsne : ((posts.filter (fun t => t.timestamp.isSome)).filterMap
      (fun t => t.timestamp)).insertionSort intAsc ≠ [] := by
    intro hnil
    have := congrArg List.length hnil
    rw [List.length_insertionSort] at this
    exact hvne (List.length_eq_zero.mp this)
  simp only [generateAnalytics]
  rw [if_neg hlen]
  split
  · rename_i hL
    exact absurd hL hsne
  · rename_i d ds hL
    refine ⟨_, rfl, ?_, ?_, ?_, ?_, ?_⟩ <;>
      simp [heng, averageLikesOf]

/-- A retweet with a valid timestamp. -/
def c10Good : Tweet := mkTweet "r2" 3 4 true (some 99)

/-- Witness for the amended C10 at the concrete list `[c10Good]`. -/
theorem claim10_witness :
    ∃ a : Analytics, generateAnalytics [c10Good] = .ok a ∧
      a.engagement.averageLikes = "NaN" ∧
      a.engagement.totalLikes = 0 ∧
      a.engagement.totalRetweetCount = 0 ∧
      a.engagement.totalReplies = 0 ∧
      a.engagement.topTweets = [] :=
  claim10_amended [c10Good] (by simp) (by simp [c10Good, mkTweet])
    ⟨c10Good, by simp, rfl⟩

section CleanTextLemmas

/-- A whitespace character is not one of the characters that can open a URL
prefix or a hashtag. -/
theorem ws_char_cases {c : Char} (h : isWsChar c = true) :
    c ≠ 'h' ∧ c ≠ 'w' ∧ c ≠ '#' := by
  have h2 := h
  simp only [isWsChar, Bool.or_eq_true, decide_eq_true_eq] at h2
  rcases h2 with ⟨⟨⟨⟨rfl | rfl⟩ | rfl⟩ | rfl⟩ | rfl⟩ | rfl <;>
    exact ⟨by decide, by decide, by decide⟩

theorem dropPfx_eq_some {p t r : List Char} :
    dropPfx p t = some r ↔ p <+: t ∧ r = t.drop p.length := by
  constructor
  · intro h
    unfold dropPfx at h
    split at h
    · rename_i hp
      injection h with h
      exact ⟨List.isPrefixOf_iff_prefix.mp hp, h.symm⟩
    · cases h
  · rintro ⟨hp, rfl⟩
    unfold dropPfx
    rw [if_pos (List.isPrefixOf_iff_prefix.mpr hp)]

theorem dropPfx_append (p x : List Char) : dropPfx p (p ++ x) = some x :=
  dropPfx_eq_some.mpr ⟨List.prefix_append p x, (List.drop_left p x).symm⟩

/-- The head of the list, when present, is whitespace. Holds vacuously for the
empty list. -/
def headWsOrNil (l : List Char) : Prop := ∀ c ∈ l.head?, isWsChar c = true

/-- The head of the list, when present, is whitespace or a hash sign. -/
def headWsHash (l : List Char) : Prop := ∀ c ∈ l.head?, isWsChar c = true ∨ c = '#'

theorem urlTail_eq_some {r r2 : List Char} :
    urlTail r = some r2 ↔
      ∃ c cs, r = c :: cs ∧ isWsChar c = false ∧
        r2 = cs.dropWhile (fun d => !isWsChar d) := by
  cases r with
  | nil => simp [urlTail]
  | cons c cs =>
    rw [show urlTail (c :: cs)
        = if isWsChar c = true then none
          else some ((c :: cs).dropWhile (fun d => !isWsChar d)) from rfl]
    by_cases hw : isWsChar c = true
    · simp [hw]
    · have hw' : isWsChar c = false := by simpa using hw
      rw [if_neg hw]
      constructor
      · intro h
        injection h with h
        refine ⟨c, cs, rfl, hw', ?_⟩
        rw [← h, List.dropWhile_cons_of_pos (by simp [hw'])]
      · rintro ⟨c2, cs2, heq, hb, hr2⟩
        injection heq with h1 h2
        subst h1; subst h2; subst hr2
        rw [List.dropWhile_cons_of_pos (by simp [hw'])]

theorem urlTail_some_facts {r r2 : List Char} (h : urlTail r = some r2) :
    headWsOrNil r2 ∧ r2.length < r.length := by
  obtain ⟨c, cs, rfl, hc, rfl⟩ := urlTail_eq_some.mp h
  constructor
  · intro x hx
    have hd := List.head?_dropWhile_not (fun d => !isWsChar d) cs
    rw [Option.mem_def] at hx
    rw [hx] at hd
    simpa using hd
  · have := (List.dropWhile_suffix (fun d => !isWsChar d) (l := cs)).sublist.length_le
    simp only [List.length_cons]
    omega

/-- One of the three URL prefix alternatives. -/
def pOK (p : List Char) : Prop := p = urlPfxS ∨ p = urlPfxH ∨ p = urlPfxW

theorem not_prefix_HS : ¬ urlPfxH <+: urlPfxS := by
  rw [← List.isPrefixOf_iff_prefix]
  decide

theorem not_prefix_WS : ¬ urlPfxW <+: urlPfxS := by
  rw [← List.isPrefixOf_iff_prefix]
  decide

theorem not_prefix_WH : ¬ urlPfxW <+: urlPfxH := by
  rw [← List.isPrefixOf_iff_prefix]
  decide

theorem urlMatchAt_some_facts {t r : List Char} (h : urlMatchAt t = some r) :
    (∃ p, pOK p ∧ ∃ d r2, t = p ++ d :: r2 ∧ isWsChar d = false) ∧
      headWsOrNil r ∧ r.length < t.length := by
  unfold urlMatchAt at h
  rcases hS : dropPfx urlPfxS t with _ | qS
  all_goals rw [hS] at h
  · rcases hH : dropPfx urlPfxH t with _ | qH
    all_goals rw [hH] at h
    · rcases hW : dropPfx urlPfxW t with _ | qW
      all_goals rw [hW] at h
      · cases h
      · obtain ⟨hp, hq⟩ := dropPfx_eq_some.mp hW
        obtain ⟨s, rfl⟩ := hp
        rw [List.drop_left] at hq
        subst hq
        obtain ⟨c, cs, rfl, hc, _⟩ := urlTail_eq_some.mp h
        obtain ⟨hhead, hlen⟩ := urlTail_some_facts h
        refine ⟨⟨urlPfxW, Or.inr (Or.inr rfl), c, cs, rfl, hc⟩, hhead, ?_⟩
        rw [List.length_append]
        omega
    · obtain ⟨hp, hq⟩ := dropPfx_eq_some.mp hH
      obtain ⟨s, rfl⟩ := hp
      rw [List.drop_left] at hq
      subst hq
      obtain ⟨c, cs, rfl, hc, _⟩ := urlTail_eq_some.mp h
      obtain ⟨hhead, hlen⟩ := urlTail_some_facts h
      refine ⟨⟨urlPfxH, Or.inr (Or.inl rfl), c, cs, rfl, hc⟩, hhead, ?_⟩
      rw [List.length_append]
      omega
  · obtain ⟨hp, hq⟩ := dropPfx_eq_some.mp hS
    obtain ⟨s, rfl⟩ := hp
    rw [List.drop_left] at hq
    subst hq
    obtain ⟨c, cs, rfl, hc, _⟩ := urlTail_eq_some.mp h
    obtain ⟨hhead, hlen⟩ := urlTail_some_facts h
    refine ⟨⟨urlPfxS, Or.inl rfl, c, cs, rfl, hc⟩, hhead, ?_⟩
    rw [List.length_append]
    omega

end CleanTextLemmas

theorem urlMatchAt_of_window {p : List Char} {d : Char} {r2 t : List Char}
    (hp : pOK p) (hd : isWsChar d = false) (ht : t = p ++ d :: r2) :
    urlMatchAt t ≠ none := by
  subst ht
  have hTail : urlTail (d :: r2)
      = some ((d :: r2).dropWhile (fun e => !isWsChar e)) := by
    rw [show urlTail (d :: r2)
        = if isWsChar d = true then none
          else some ((d :: r2).dropWhile (fun e => !isWsChar e)) from rfl,
      if_neg (by simp [hd])]
  have hnSH : dropPfx urlPfxS (urlPfxH ++ d :: r2) = none := by
    unfold dropPfx
    rw [if_neg]
    intro hS
    rw [List.isPrefixOf_iff_prefix] at hS
    exact not_prefix_HS
      (List.prefix_of_prefix_length_le (List.prefix_append _ _) hS (by decide))
  have hnSW : dropPfx urlPfxS (urlPfxW ++ d :: r2) = none := by
    unfold dropPfx
    rw [if_neg]
    intro hS
    rw [List.isPrefixOf_iff_prefix] at hS
    exact not_prefix_WS
      (List.prefix_of_prefix_length_le (List.prefix_append _ _) hS (by decide))
  have hnHW : dropPfx urlPfxH (urlPfxW ++ d :: r2) = none := by
    unfold dropPfx
    rw [if_neg]
    intro hH
    rw [List.isPrefixOf_iff_prefix] at hH
    exact not_prefix_WH
      (List.prefix_of_prefix_length_le (List.prefix_append _ _) hH (by decide))
  rcases hp with rfl | rfl | rfl
  · have hm : urlMatchAt (urlPfxS ++ d :: r2) = urlTail (d :: r2) := by
      unfold urlMatchAt
      rw [dropPfx_append]
    rw [hm, hTail]
    simp
  · have hm : urlMatchAt (urlPfxH ++ d :: r2) = urlTail (d :: r2) := by
      unfold urlMatchAt
      rw [hnSH, dropPfx_append]
    rw [hm, hTail]
    simp
  · have hm : urlMatchAt (urlPfxW ++ d :: r2) = urlTail (d :: r2) := by
      unfold urlMatchAt
      rw [hnSW, hnHW, dropPfx_append]
    rw [hm, hTail]
    simp

theorem urlMatchAt_ws_head {c : Char} {x : List Char} (h : isWsChar c = true) :
    urlMatchAt (c :: x) = none := by
  cases hm : urlMatchAt (c :: x) with
  | none => rfl
  | some r =>
    obtain ⟨⟨p, hp, d, r2, ht, _⟩, -, -⟩ := urlMatchAt_some_facts hm
    obtain ⟨hh, hw, -⟩ := ws_char_cases h
    rcases hp with rfl | rfl | rfl <;>
      exact absurd (List.head_eq_of_cons_eq ht).symm (by first | exact Ne.symm hh | exact Ne.symm hw)

theorem urlMatchAt_nil : urlMatchAt [] = none := rfl

/-- Fuel does not matter once it is at least the length of the input. -/
theorem stripUrlsF_fuel_eq :
    ∀ f1 : Nat, ∀ f2 : Nat, ∀ t : List Char, t.length ≤ f1 → t.length ≤ f2 →
      stripUrlsF f1 t = stripUrlsF f2 t := by
  intro f1
  induction f1 with
  | zero =>
    intro f2 t h1 _
    have : t = [] := List.length_eq_zero.mp (Nat.le_zero.mp h1)
    subst this
    cases f2 <;> rfl
  | succ f1 ih =>
    intro f2 t h1 h2
    cases t with
    | nil => cases f2 <;> rfl
    | cons c rest =>
      cases f2 with
      | zero => simp at h2
      | succ f2 =>
        show (match urlMatchAt (c :: rest) with
          | some r => stripUrlsF f1 r
          | none => c :: stripUrlsF f1 rest) =
          (match urlMatchAt (c :: rest) with
          | some r => stripUrlsF f2 r
          | none => c :: stripUrlsF f2 rest)
        cases hm : urlMatchAt (c :: rest) with
        | some r =>
          obtain ⟨-, -, hlen⟩ := urlMatchAt_some_facts hm
          have hr1 : r.length ≤ f1 := by
            simp only [List.length_cons] at hlen h1
            omega
          have hr2 : r.length ≤ f2 := by
            simp only [List.length_cons] at hlen h2
            omega
          exact ih f2 r hr1 hr2
        | none =>
          have hr1 : rest.length ≤ f1 := by
            simp only [List.length_cons] at h1
            omega
          have hr2 : rest.length ≤ f2 := by
            simp only [List.length_cons] at h2
            omega
          rw [ih f2 rest hr1 hr2]

theorem stripUrls_nil : stripUrls [] = [] := rfl

theorem stripUrls_cons_some {c : Char} {rest r : List Char}
    (h : urlMatchAt (c :: rest) = some r) :
    stripUrls (c :: rest) = stripUrls r := by
  obtain ⟨-, -, hlen⟩ := urlMatchAt_some_facts h
  show stripUrlsF (c :: rest).length (c :: rest) = stripUrlsF r.length r
  rw [show stripUrlsF (c :: rest).length (c :: rest)
      = (match urlMatchAt (c :: rest) with
        | some r => stripUrlsF rest.length r
        | none => c :: stripUrlsF rest.length rest) from rfl, h]
  exact stripUrlsF_fuel_eq rest.length r.length r
    (by simp only [List.length_cons] at hlen; omega) (Nat.le_refl _)

theorem stripUrls_cons_none {c : Char} {rest : List Char}
    (h : urlMatchAt (c :: rest) = none) :
    stripUrls (c :: rest) = c :: stripUrls rest := by
  show stripUrlsF (c :: rest).length (c :: rest) = c :: stripUrls rest
  rw [show stripUrlsF (c :: rest).length (c :: rest)
      = (match urlMatchAt (c :: rest) with
        | some r => stripUrlsF rest.length r
        | none => c :: stripUrlsF rest.length rest) from rfl, h]
  rfl

theorem hashMatchAt_eq_some {t r : List Char} :
    hashMatchAt t = some r ↔
      ∃ d rest, t = '#' :: d :: rest ∧ isWsChar d = false ∧ d ≠ '#' ∧
        r = (d :: rest).dropWhile (fun e => !(isWsChar e || e = '#')) := by
  cases t with
  | nil => simp [hashMatchAt]
  | cons c t2 =>
    cases t2 with
    | nil => simp [hashMatchAt]
    | cons d rest =>
      rw [show hashMatchAt (c :: d :: rest)
          = (if c = '#' then
              if isWsChar d || d = '#' then none
              else some ((d :: rest).dropWhile (fun e => !(isWsChar e || e = '#')))
            else none) from rfl]
      by_cases hc : c = '#'
      · subst hc
        by_cases hd : (isWsChar d || d = '#') = true
        · rw [if_pos rfl, if_pos hd]
          simp only [Bool.or_eq_true, decide_eq_true_eq] at hd
          constructor
          · intro h; cases h
          · rintro ⟨d2, rest2, heq, hw2, hh2, -⟩
            injection heq with h1 h2
            injection h2 with h2a h2b
            subst h2a
            rcases hd with hd | hd
            · rw [hw2] at hd; cases hd
            · exact absurd hd hh2
        · rw [if_pos rfl, if_neg hd]
          simp only [Bool.or_eq_true, decide_eq_true_eq, not_or] at hd
          constructor
          · intro h
            injection h with h
            exact ⟨d, rest, rfl, by simpa using hd.1, hd.2, h.symm⟩
          · rintro ⟨d2, rest2, heq, -, -, hr⟩
            injection heq with h1 h2
            injection h2 with h2a h2b
            subst h2a; subst h2b; subst hr
            rfl
      · rw [if_neg hc]
        constructor
        · intro h; cases h
        · rintro ⟨d2, rest2, heq, -, -, -⟩
          exact absurd (List.head_eq_of_cons_eq heq) hc

theorem hashMatchAt_some_facts {t r : List Char} (h : hashMatchAt t = some r) :
    headWsHash r ∧ r.length < t.length ∧
      ∃ d rest, t = '#' :: d :: rest ∧ isWsChar d = false ∧ d ≠ '#' := by
  obtain ⟨d, rest, rfl, hw, hh, hr⟩ := hashMatchAt_eq_some.mp h
  have hdrop : r = rest.dropWhile (fun e => !(isWsChar e || e = '#')) := by
    rw [hr, List.dropWhile_cons_of_pos (by simp [hw, hh])]
  refine ⟨?_, ?_, d, rest, rfl, hw, hh⟩
  · intro x hx
    have hd := List.head?_dropWhile_not (fun e => !(isWsChar e || e = '#')) rest
    rw [Option.mem_def] at hx
    rw [← hdrop] at hd
    rw [hx] at hd
    simp only [Bool.not_eq_false', Bool.or_eq_true, decide_eq_true_eq] at hd
    exact hd
  · have := (List.dropWhile_suffix (fun e => !(isWsChar e || e = '#')) (l := rest)).sublist.length_le
    rw [hdrop]
    simp only [List.length_cons]
    omega

theorem hashMatchAt_of_window {d : Char} {rest t : List Char}
    (hw : isWsChar d = false) (hh : d ≠ '#') (ht : t = '#' :: d :: rest) :
    hashMatchAt t ≠ none := by
  intro hnone
  rw [ht] at hnone
  rw [show hashMatchAt ('#' :: d :: rest)
      = (if ('#' : Char) = '#' then
          if isWsChar d || d = '#' then none
          else some ((d :: rest).dropWhile (fun e => !(isWsChar e || e = '#')))
        else none) from rfl, if_pos rfl, if_neg (by simp [hw, hh])] at hnone
  cases hnone

theorem hashMatchAt_not_hash_head {c : Char} {x : List Char} (hc : c ≠ '#') :
    hashMatchAt (c :: x) = none := by
  cases hm : hashMatchAt (c :: x) with
  | none => rfl
  | some r =>
    obtain ⟨-, -, d, rest, ht, -, -⟩ := hashMatchAt_some_facts hm
    exact absurd (List.head_eq_of_cons_eq ht) hc

theorem hashMatchAt_nil : hashMatchAt [] = none := rfl

theorem stripHashtagsF_fuel_eq :
    ∀ f1 : Nat, ∀ f2 : Nat, ∀ t : List Char, t.length ≤ f1 → t.length ≤ f2 →
      stripHashtagsF f1 t = stripHashtagsF f2 t := by
  intro f1
  induction f1 with
  | zero =>
    intro f2 t h1 _
    have : t = [] := List.length_eq_zero.mp (Nat.le_zero.mp h1)
    subst this
    cases f2 <;> rfl
  | succ f1 ih =>
    intro f2 t h1 h2
    cases t with
    | nil => cases f2 <;> rfl
    | cons c rest =>
      cases f2 with
      | zero => simp at h2
      | succ f2 =>
        show (match hashMatchAt (c :: rest) with
          | some r => stripHashtagsF f1 r
          | none => c :: stripHashtagsF f1 rest) =
          (match hashMatchAt (c :: rest) with
          | some r => stripHashtagsF f2 r
          | none => c :: stripHashtagsF f2 rest)
        cases hm : hashMatchAt (c :: rest) with
        | some r =>
          obtain ⟨-, hlen, -⟩ := hashMatchAt_some_facts hm
          have hr1 : r.length ≤ f1 := by
            simp only [List.length_cons] at hlen h1
            omega
          have hr2 : r.length ≤ f2 := by
            simp only [List.length_cons] at hlen h2
            omega
          exact ih f2 r hr1 hr2
        | none =>
          have hr1 : rest.length ≤ f1 := by
            simp only [List.length_cons] at h1
            omega
          have hr2 : rest.length ≤ f2 := by
            simp only [List.length_cons] at h2
            omega
          rw [ih f2 rest hr1 hr2]

theorem stripHashtags_nil : stripHashtags [] = [] := rfl

theorem stripHashtags_cons_some {c : Char} {rest r : List Char}
    (h : hashMatchAt (c :: rest) = some r) :
    stripHashtags (c :: rest) = stripHashtags r := by
  obtain ⟨-, hlen, -⟩ := hashMatchAt_some_facts h
  show stripHashtagsF (c :: rest).length (c :: rest) = stripHashtagsF r.length r
  rw [show stripHashtagsF (c :: rest).length (c :: rest)
      = (match hashMatchAt (c :: rest) with
        | some r => stripHashtagsF rest.length r
        | none => c :: stripHashtagsF rest.length rest) from rfl, h]
  exact stripHashtagsF_fuel_eq rest.length r.length r
    (by simp only [List.length_cons] at hlen; omega) (Nat.le_refl _)

theorem stripHashtags_cons_none {c : Char} {rest : List Char}
    (h : hashMatchAt (c :: rest) = none) :
    stripHashtags (c :: rest) = c :: stripHashtags rest := by
  show stripHashtagsF (c :: rest).length (c :: rest) = c :: stripHashtags rest
  rw [show stripHashtagsF (c :: rest).length (c :: rest)
      = (match hashMatchAt (c :: rest) with
        | some r => stripHashtagsF rest.length r
        | none => c :: stripHashtagsF rest.length rest) from rfl, h]
  rfl

theorem collapseWsF_fuel_eq :
    ∀ f1 : Nat, ∀ f2 : Nat, ∀ t : List Char, t.length ≤ f1 → t.length ≤ f2 →
      collapseWsF f1 t = collapseWsF f2 t := by
  intro f1
  induction f1 with
  | zero =>
    intro f2 t h1 _
    have : t = [] := List.length_eq_zero.mp (Nat.le_zero.mp h1)
    subst this
    cases f2 <;> rfl
  | succ f1 ih =>
    intro f2 t h1 h2
    cases t with
    | nil => cases f2 <;> rfl
    | cons c rest =>
      cases f2 with
      | zero => simp at h2
      | succ f2 =>
        show (if isWsChar c then ' ' :: collapseWsF f1 (rest.dropWhile isWsChar)
              else c :: collapseWsF f1 rest) =
          (if isWsChar c then ' ' :: collapseWsF f2 (rest.dropWhile isWsChar)
              else c :: collapseWsF f2 rest)
        have hdl := (List.dropWhile_suffix isWsChar (l := rest)).sublist.length_le
        simp only [List.length_cons] at h1 h2
        by_cases hc : isWsChar c
        · rw [if_pos hc, if_pos hc, ih f2 _ (by omega) (by omega)]
        · rw [if_neg hc, if_neg hc, ih f2 rest (by omega) (by omega)]

theorem collapseWs_nil : collapseWs [] = [] := rfl

theorem collapseWs_cons_ws {c : Char} {rest : List Char} (h : isWsChar c = true) :
    collapseWs (c :: rest) = ' ' :: collapseWs (rest.dropWhile isWsChar) := by
  show collapseWsF (c :: rest).length (c :: rest) = _
  rw [show collapseWsF (c :: rest).length (c :: rest)
      = (if isWsChar c then ' ' :: collapseWsF rest.length (rest.dropWhile isWsChar)
          else c :: collapseWsF rest.length rest) from rfl, if_pos h]
  have hdl := (List.dropWhile_suffix isWsChar (l := rest)).sublist.length_le
  rw [collapseWsF_fuel_eq rest.length (rest.dropWhile isWsChar).length _
    (by omega) (Nat.le_refl _)]
  rfl

theorem collapseWs_cons_not_ws {c : Char} {rest : List Char} (h : isWsChar c = false) :
    collapseWs (c :: rest) = c :: collapseWs rest := by
  show collapseWsF (c :: rest).length (c :: rest) = _
  rw [show collapseWsF (c :: rest).length (c :: rest)
      = (if isWsChar c then ' ' :: collapseWsF rest.length (rest.dropWhile isWsChar)
          else c :: collapseWsF rest.length rest) from rfl, if_neg (by simp [h])]
  rfl

/-- No suffix of `t` begins with a URL match: `t` contains no URL-like
substring (in the sense of the source regex). -/
def NoUrl (t : List Char) : Prop := ∀ s : List Char, s <:+ t → urlMatchAt s = none

/-- No suffix of `t` begins with a hashtag match: `t` contains no hashtag-like
substring (in the sense of the source regex). -/
def NoHash (t : List Char) : Prop := ∀ s : List Char, s <:+ t → hashMatchAt s = none

theorem NoUrl_suffix {t s : List Char} (h : NoUrl t) (hs : s <:+ t) : NoUrl s :=
  fun x hx => h x (hx.trans hs)

theorem NoHash_suffix {t s : List Char} (h : NoHash t) (hs : s <:+ t) : NoHash s :=
  fun x hx => h x (hx.trans hs)

theorem prefix_snoc_iff {p : List Char} {d : Char} {t : List Char} :
    (p ++ [d]) <+: t ↔ ∃ r2, t = p ++ d :: r2 := by
  constructor
  · rintro ⟨s, rfl⟩
    exact ⟨s, by simp⟩
  · rintro ⟨r2, rfl⟩
    exact ⟨r2, by simp⟩

/-- Decomposition of each URL prefix alternative into its head character and a
non-empty, whitespace-free, hash-free tail. -/
theorem urlPfx_cons {p : List Char} (hp : pOK p) :
    ∃ c0 p2, p = c0 :: p2 ∧ p2 ≠ [] ∧
      (∀ c ∈ p2, isWsChar c = false ∧ c ≠ '#') := by
  rcases hp with rfl | rfl | rfl
  · exact ⟨'h', "ttps://".toList, by decide, by decide, by decide⟩
  · exact ⟨'h', "ttp://".toList, by decide, by decide, by decide⟩
  · exact ⟨'w', "ww.".toList, by decide, by decide, by decide⟩

/-- The URL scan's output over a whitespace-headed (or empty) list keeps that
shape at its head. -/
theorem stripUrls_headWs {r : List Char} (h : headWsOrNil r) :
    stripUrls r = [] ∨ ∃ w x, stripUrls r = w :: x ∧ isWsChar w = true := by
  cases r with
  | nil => exact Or.inl rfl
  | cons w r2 =>
    have hw : isWsChar w = true := h w rfl
    rw [stripUrls_cons_none (urlMatchAt_ws_head hw)]
    exact Or.inr ⟨w, stripUrls r2, rfl, hw⟩

/-- A non-whitespace head of the URL scan's output is the head of its input. -/
theorem stripUrls_head_reflect {l : List Char} {d : Char} {x : List Char}
    (h : stripUrls l = d :: x) (hd : isWsChar d = false) :
    ∃ tail, l = d :: tail := by
  cases l with
  | nil => cases h
  | cons b rest =>
    cases hm : urlMatchAt (b :: rest) with
    | some r =>
      rw [stripUrls_cons_some hm] at h
      obtain ⟨-, hhead, -⟩ := urlMatchAt_some_facts hm
      rcases stripUrls_headWs hhead with hnil | ⟨w, x2, hws, hw⟩
      · rw [hnil] at h
        cases h
      · rw [hws] at h
        have : w = d := List.head_eq_of_cons_eq h
        rw [this] at hw
        rw [hw] at hd
        cases hd
    | none =>
      rw [stripUrls_cons_none hm] at h
      exact ⟨rest, by rw [List.head_eq_of_cons_eq h]⟩

/-- Reflection of non-whitespace windows through the URL scan: a
whitespace-free block followed by one further non-whitespace character at the
start of the output comes from the same block (with a possibly different
non-whitespace successor) at the start of the input. -/
theorem prefix_reflect_stripUrls :
    ∀ (m q : List Char) (d : Char), q ≠ [] → (∀ c ∈ q, isWsChar c = false) →
      isWsChar d = false → (q ++ [d]) <+: stripUrls m →
      ∃ e, isWsChar e = false ∧ (q ++ [e]) <+: m := by
  intro m
  induction m with
  | nil =>
    intro q d hq _ _ hpre
    rw [stripUrls_nil, List.prefix_nil, List.append_eq_nil] at hpre
    exact absurd hpre.1 hq
  | cons c rest ih =>
    intro q d hq hqws hd hpre
    cases hm : urlMatchAt (c :: rest) with
    | some r =>
      rw [stripUrls_cons_some hm] at hpre
      obtain ⟨-, hhead, -⟩ := urlMatchAt_some_facts hm
      rcases stripUrls_headWs hhead with hnil | ⟨w, x2, hws, hw⟩
      · rw [hnil, List.prefix_nil, List.append_eq_nil] at hpre
        exact absurd hpre.1 hq
      · rw [hws] at hpre
        cases q with
        | nil => exact absurd rfl hq
        | cons q0 qs =>
          obtain ⟨s, hs⟩ := hpre
          rw [List.cons_append] at hs
          have : q0 = w := List.head_eq_of_cons_eq hs
          have hq0 : isWsChar q0 = false := (hqws q0 (List.mem_cons_self _ _))
          rw [this, hw] at hq0
          cases hq0
    | none =>
      rw [stripUrls_cons_none hm] at hpre
      cases q with
      | nil => exact absurd rfl hq
      | cons q0 qs =>
        obtain ⟨s, hs⟩ := hpre
        rw [List.cons_append] at hs
        have hq0 : q0 = c := List.head_eq_of_cons_eq hs
        subst hq0
        have htail : (qs ++ [d]) <+: stripUrls rest :=
          ⟨s, List.tail_eq_of_cons_eq hs⟩
        cases qs with
        | nil =>
          obtain ⟨r2, hr2⟩ := prefix_snoc_iff.mp htail
          rw [List.nil_append] at hr2
          obtain ⟨tail, htl⟩ := stripUrls_head_reflect hr2 hd
          exact ⟨d, hd, prefix_snoc_iff.mpr ⟨tail, by rw [htl]; rfl⟩⟩
        | cons q1 qs2 =>
          obtain ⟨e, he, hpre2⟩ := ih (q1 :: qs2) d (by simp)
            (fun x hx => hqws x (List.mem_cons_of_mem _ hx)) hd htail
          obtain ⟨r2, hr2⟩ := prefix_snoc_iff.mp hpre2
          exact ⟨e, he, prefix_snoc_iff.mpr ⟨r2, by rw [hr2]; rfl⟩⟩

/-- Auxiliary fuelled form: the URL scan's output contains no URL match. -/
theorem NoUrl_stripUrls_aux :
    ∀ n (t : List Char), t.length ≤ n → NoUrl (stripUrls t) := by
  intro n
  induction n with
  | zero =>
    intro t h
    have : t = [] := List.length_eq_zero.mp (Nat.le_zero.mp h)
    subst this
    intro s hs
    have hs2 : s = [] := List.suffix_nil.mp (by simpa [stripUrls_nil] using hs)
    subst hs2
    exact urlMatchAt_nil
  | succ n ih =>
    intro t h
    cases t with
    | nil =>
      intro s hs
      have hs2 : s = [] := List.suffix_nil.mp (by simpa [stripUrls_nil] using hs)
      subst hs2
      exact urlMatchAt_nil
    | cons c rest =>
      cases hm : urlMatchAt (c :: rest) with
      | some r =>
        rw [stripUrls_cons_some hm]
        obtain ⟨-, -, hlen⟩ := urlMatchAt_some_facts hm
        exact ih r (by simp only [List.length_cons] at hlen h; omega)
      | none =>
        rw [stripUrls_cons_none hm]
        intro s hs
        rcases List.suffix_cons_iff.mp hs with rfl | hs2
        · cases hm2 : urlMatchAt (c :: stripUrls rest) with
          | none => rfl
          | some r2 =>
            exfalso
            obtain ⟨⟨p, hp, d, r3, ht, hd⟩, -, -⟩ := urlMatchAt_some_facts hm2
            obtain ⟨c0, p2, rfl, hp2ne, hp2cond⟩ := urlPfx_cons hp
            rw [List.cons_append] at ht
            have hc0 : c = c0 := List.head_eq_of_cons_eq ht
            have hrest : stripUrls rest = p2 ++ d :: r3 := List.tail_eq_of_cons_eq ht
            have hpre : (p2 ++ [d]) <+: stripUrls rest :=
              prefix_snoc_iff.mpr ⟨r3, hrest⟩
            obtain ⟨e, he, hpre2⟩ := prefix_reflect_stripUrls rest p2 d hp2ne
              (fun x hx => (hp2cond x hx).1) hd hpre
            obtain ⟨r4, hr4⟩ := prefix_snoc_iff.mp hpre2
            exact urlMatchAt_of_window hp he
              (by rw [hc0, hr4]; rfl) hm
        · exact ih rest (by simp only [List.length_cons] at h; omega) s hs2

/-- The URL scan's output contains no URL match. -/
theorem NoUrl_stripUrls (t : List Char) : NoUrl (stripUrls t) :=
  NoUrl_stripUrls_aux t.length t (Nat.le_refl _)

/-- A URL-free list is a fixed point of the URL scan. -/
theorem stripUrls_of_NoUrl : ∀ {t : List Char}, NoUrl t → stripUrls t = t := by
  intro t
  induction t with
  | nil => intro _; rfl
  | cons c rest ih =>
    intro h
    rw [stripUrls_cons_none (h _ List.suffix_rfl),
      ih (NoUrl_suffix h (List.suffix_cons c rest))]

theorem headWsHash_of_hash_none {x : List Char}
    (h : hashMatchAt ('#' :: x) = none) : headWsHash x := by
  intro e he
  cases x with
  | nil => cases he
  | cons e0 x2 =>
    rw [Option.mem_def] at he
    injection he with he
    subst he
    by_contra hcon
    push_neg at hcon
    exact hashMatchAt_of_window (by simpa using hcon.1) hcon.2 rfl h

/-- The hashtag scan's output over a list whose head is whitespace or a hash
sign (or which is empty) keeps that shape at its head. -/
theorem stripHashtags_headWsHash_aux :
    ∀ n (r : List Char), r.length ≤ n → headWsHash r →
      stripHashtags r = [] ∨
        ∃ w x, stripHashtags r = w :: x ∧ (isWsChar w = true ∨ w = '#') := by
  intro n
  induction n with
  | zero =>
    intro r hle _
    have : r = [] := List.length_eq_zero.mp (Nat.le_zero.mp hle)
    subst this
    exact Or.inl rfl
  | succ n ih =>
    intro r hle hh
    cases r with
    | nil => exact Or.inl rfl
    | cons w r2 =>
      have hw : isWsChar w = true ∨ w = '#' := hh w rfl
      cases hm : hashMatchAt (w :: r2) with
      | some q =>
        rw [stripHashtags_cons_some hm]
        obtain ⟨hq, hlen, -⟩ := hashMatchAt_some_facts hm
        exact ih q (by simp only [List.length_cons] at hlen hle; omega) hq
      | none =>
        rw [stripHashtags_cons_none hm]
        exact Or.inr ⟨w, stripHashtags r2, rfl, hw⟩

theorem stripHashtags_headWsHash {r : List Char} (hh : headWsHash r) :
    stripHashtags r = [] ∨
      ∃ w x, stripHashtags r = w :: x ∧ (isWsChar w = true ∨ w = '#') :=
  stripHashtags_headWsHash_aux r.length r (Nat.le_refl _) hh

/-- A non-whitespace head of the hashtag scan's output means the input also
starts with some non-whitespace character. -/
theorem stripHashtags_head_reflect {l : List Char} {d : Char} {x : List Char}
    (h : stripHashtags l = d :: x) (hd : isWsChar d = false) :
    ∃ e tail, l = e :: tail ∧ isWsChar e = false := by
  cases l with
  | nil => cases h
  | cons b rest =>
    cases hm : hashMatchAt (b :: rest) with
    | some r =>
      obtain ⟨-, -, d2, rest2, ht, -, -⟩ := hashMatchAt_some_facts hm
      have hb : b = '#' := List.head_eq_of_cons_eq ht
      exact ⟨b, rest, rfl, by rw [hb]; decide⟩
    | none =>
      rw [stripHashtags_cons_none hm] at h
      have hb : b = d := List.head_eq_of_cons_eq h
      exact ⟨b, rest, rfl, by rw [hb]; exact hd⟩

/-- Reflection of whitespace-free, hash-free windows through the hashtag scan. -/
theorem prefix_reflect_stripHashtags :
    ∀ (m q : List Char) (d : Char), q ≠ [] →
      (∀ c ∈ q, isWsChar c = false ∧ c ≠ '#') →
      isWsChar d = false → (q ++ [d]) <+: stripHashtags m →
      ∃ e, isWsChar e = false ∧ (q ++ [e]) <+: m := by
  intro m
  induction m with
  | nil =>
    intro q d hq _ _ hpre
    rw [stripHashtags_nil, List.prefix_nil, List.append_eq_nil] at hpre
    exact absurd hpre.1 hq
  | cons c rest ih =>
    intro q d hq hqc hd hpre
    cases hm : hashMatchAt (c :: rest) with
    | some r =>
      rw [stripHashtags_cons_some hm] at hpre
      obtain ⟨hhead, -, -⟩ := hashMatchAt_some_facts hm
      rcases stripHashtags_headWsHash hhead with hnil | ⟨w, x2, hws, hw⟩
      · rw [hnil, List.prefix_nil, List.append_eq_nil] at hpre
        exact absurd hpre.1 hq
      · rw [hws] at hpre
        cases q with
        | nil => exact absurd rfl hq
        | cons q0 qs =>
          obtain ⟨s, hs⟩ := hpre
          rw [List.cons_append] at hs
          have hq0 : q0 = w := List.head_eq_of_cons_eq hs
          obtain ⟨hq0ws, hq0h⟩ := hqc q0 (List.mem_cons_self _ _)
          rcases hw with hw | hw
          · rw [hq0] at hq0ws
            rw [hq0ws] at hw
            cases hw
          · rw [hw] at hq0
            exact absurd hq0 hq0h
    | none =>
      rw [stripHashtags_cons_none hm] at hpre
      cases q with
      | nil => exact absurd rfl hq
      | cons q0 qs =>
        obtain ⟨s, hs⟩ := hpre
        rw [List.cons_append] at hs
        have hq0 : q0 = c := List.head_eq_of_cons_eq hs
        subst hq0
        have htail : (qs ++ [d]) <+: stripHashtags rest :=
          ⟨s, List.tail_eq_of_cons_eq hs⟩
        cases qs with
        | nil =>
          obtain ⟨r2, hr2⟩ := prefix_snoc_iff.mp htail
          rw [List.nil_append] at hr2
          obtain ⟨e, tail, htl, he⟩ := stripHashtags_head_reflect hr2 hd
          exact ⟨e, he, prefix_snoc_iff.mpr ⟨tail, by rw [htl]; rfl⟩⟩
        | cons q1 qs2 =>
          obtain ⟨e, he, hpre2⟩ := ih (q1 :: qs2) d (by simp)
            (fun x hx => hqc x (List.mem_cons_of_mem _ hx)) hd htail
          obtain ⟨r2, hr2⟩ := prefix_snoc_iff.mp hpre2
          exact ⟨e, he, prefix_snoc_iff.mpr ⟨r2, by rw [hr2]; rfl⟩⟩

/-- The hashtag scan's output contains no hashtag match. -/
theorem NoHash_stripHashtags_aux :
    ∀ n (t : List Char), t.length ≤ n → NoHash (stripHashtags t) := by
  intro n
  induction n with
  | zero =>
    intro t h
    have : t = [] := List.length_eq_zero.mp (Nat.le_zero.mp h)
    subst this
    intro s hs
    have hs2 : s = [] := List.suffix_nil.mp (by simpa [stripHashtags_nil] using hs)
    subst hs2
    exact hashMatchAt_nil
  | succ n ih =>
    intro t h
    cases t with
    | nil =>
      intro s hs
      have hs2 : s = [] := List.suffix_nil.mp (by simpa [stripHashtags_nil] using hs)
      subst hs2
      exact hashMatchAt_nil
    | cons c rest =>
      cases hm : hashMatchAt (c :: rest) with
      | some r =>
        rw [stripHashtags_cons_some hm]
        obtain ⟨-, hlen, -⟩ := hashMatchAt_some_facts hm
        exact ih r (by simp only [List.length_cons] at hlen h; omega)
      | none =>
        rw [stripHashtags_cons_none hm]
        intro s hs
        rcases List.suffix_cons_iff.mp hs with rfl | hs2
        · by_cases hc : c = '#'
          · subst hc
            have hh : headWsHash rest := headWsHash_of_hash_none hm
            rcases stripHashtags_headWsHash hh with hnil | ⟨w, x2, hws, hw⟩
            · rw [hnil]
              rfl
            · rw [hws]
              cases hm2 : hashMatchAt ('#' :: w :: x2) with
              | none => rfl
              | some r2 =>
                exfalso
                obtain ⟨d2, rest2, ht, hwd, hhd, -⟩ := hashMatchAt_eq_some.mp hm2
                have : w = d2 := List.head_eq_of_cons_eq (List.tail_eq_of_cons_eq ht)
                subst this
                rcases hw with hw | hw
                · rw [hw] at hwd
                  cases hwd
                · exact absurd hw hhd
          · exact hashMatchAt_not_hash_head hc
        · exact ih rest (by simp only [List.length_cons] at h; omega) s hs2

/-- The hashtag scan's output contains no hashtag match. -/
theorem NoHash_stripHashtags (t : List Char) : NoHash (stripHashtags t) :=
  NoHash_stripHashtags_aux t.length t (Nat.le_refl _)

/-- A hashtag-free list is a fixed point of the hashtag scan. -/
theorem stripHashtags_of_NoHash : ∀ {t : List Char}, NoHash t → stripHashtags t = t := by
  intro t
  induction t with
  | nil => intro _; rfl
  | cons c rest ih =>
    intro h
    rw [stripHashtags_cons_none (h _ List.suffix_rfl),
      ih (NoHash_suffix h (List.suffix_cons c rest))]

/-- The hashtag scan preserves URL-freeness: stripping hashtags from a
URL-free list cannot create a URL match. -/
theorem NoUrl_stripHashtags_aux :
    ∀ n (t : List Char), t.length ≤ n → NoUrl t → NoUrl (stripHashtags t) := by
  intro n
  induction n with
  | zero =>
    intro t hle _
    have : t = [] := List.length_eq_zero.mp (Nat.le_zero.mp hle)
    subst this
    intro s hs
    have hs2 : s = [] := List.suffix_nil.mp (by simpa [stripHashtags_nil] using hs)
    subst hs2
    exact urlMatchAt_nil
  | succ n ih =>
    intro t hle hnu
    cases t with
    | nil =>
      intro s hs
      have hs2 : s = [] := List.suffix_nil.mp (by simpa [stripHashtags_nil] using hs)
      subst hs2
      exact urlMatchAt_nil
    | cons c rest =>
      cases hm : hashMatchAt (c :: rest) with
      | some r =>
        rw [stripHashtags_cons_some hm]
        obtain ⟨-, hlen, d, rest2, ht, hwd, hhd⟩ := hashMatchAt_some_facts hm
        have hrsuf : r <:+ c :: rest := by
          obtain ⟨d2, rest3, ht2, -, -, hr⟩ := hashMatchAt_eq_some.mp hm
          rw [hr, ht2]
          exact (List.dropWhile_suffix _).trans (List.suffix_cons _ _)
        exact ih r (by simp only [List.length_cons] at hlen hle; omega)
          (NoUrl_suffix hnu hrsuf)
      | none =>
        rw [stripHashtags_cons_none hm]
        intro s hs
        rcases List.suffix_cons_iff.mp hs with rfl | hs2
        · cases hm2 : urlMatchAt (c :: stripHashtags rest) with
          | none => rfl
          | some r2 =>
            exfalso
            obtain ⟨⟨p, hp, d, r3, ht, hd⟩, -, -⟩ := urlMatchAt_some_facts hm2
            obtain ⟨c0, p2, rfl, hp2ne, hp2cond⟩ := urlPfx_cons hp
            rw [List.cons_append] at ht
            have hc0 : c = c0 := List.head_eq_of_cons_eq ht
            have hrest : stripHashtags rest = p2 ++ d :: r3 := List.tail_eq_of_cons_eq ht
            have hpre : (p2 ++ [d]) <+: stripHashtags rest :=
              prefix_snoc_iff.mpr ⟨r3, hrest⟩
            obtain ⟨e, he, hpre2⟩ := prefix_reflect_stripHashtags rest p2 d hp2ne
              hp2cond hd hpre
            obtain ⟨r4, hr4⟩ := prefix_snoc_iff.mp hpre2
            exact urlMatchAt_of_window hp he
              (by rw [hc0, hr4]; rfl) (hnu _ List.suffix_rfl)
        · exact ih rest (by simp only [List.length_cons] at hle; omega)
            (NoUrl_suffix hnu (List.suffix_cons c rest)) s hs2

/-- The hashtag scan preserves URL-freeness. -/
theorem NoUrl_stripHashtags {t : List Char} (h : NoUrl t) :
    NoUrl (stripHashtags t) :=
  NoUrl_stripHashtags_aux t.length t (Nat.le_refl _) h

/-- Reflection of whitespace-free windows through whitespace collapsing:
collapsing never brings two non-whitespace characters together. -/
theorem prefix_reflect_collapse :
    ∀ (m w : List Char), w ≠ [] → (∀ c ∈ w, isWsChar c = false) →
      w <+: collapseWs m → w <+: m := by
  intro m
  induction m with
  | nil =>
    intro w hw _ hpre
    rw [collapseWs_nil, List.prefix_nil] at hpre
    exact absurd hpre hw
  | cons c rest ih =>
    intro w hw hwc hpre
    by_cases hc : isWsChar c = true
    · rw [collapseWs_cons_ws hc] at hpre
      cases w with
      | nil => exact absurd rfl hw
      | cons w0 ws2 =>
        obtain ⟨s, hs⟩ := hpre
        rw [List.cons_append] at hs
        have hw0 : w0 = ' ' := List.head_eq_of_cons_eq hs
        have := hwc w0 (List.mem_cons_self _ _)
        rw [hw0] at this
        cases this
    · have hc' : isWsChar c = false := by simpa using hc
      rw [collapseWs_cons_not_ws hc'] at hpre
      cases w with
      | nil => exact absurd rfl hw
      | cons w0 ws2 =>
        obtain ⟨s, hs⟩ := hpre
        rw [List.cons_append] at hs
        have hw0 : w0 = c := List.head_eq_of_cons_eq hs
        subst hw0
        cases ws2 with
        | nil => exact ⟨rest, rfl⟩
        | cons w1 ws3 =>
          have htail : (w1 :: ws3) <+: collapseWs rest :=
            ⟨s, List.tail_eq_of_cons_eq hs⟩
          obtain ⟨s2, hs2⟩ := ih (w1 :: ws3) (by simp)
            (fun x hx => hwc x (List.mem_cons_of_mem _ hx)) htail
          exact ⟨s2, by rw [← hs2]; rfl⟩

/-- Whitespace collapsing preserves URL-freeness. -/
theorem NoUrl_collapseWs_aux :
    ∀ n (t : List Char), t.length ≤ n → NoUrl t → NoUrl (collapseWs t) := by
  intro n
  induction n with
  | zero =>
    intro t hle _
    have : t = [] := List.length_eq_zero.mp (Nat.le_zero.mp hle)
    subst this
    intro s hs
    have hs2 : s = [] := List.suffix_nil.mp (by simpa [collapseWs_nil] using hs)
    subst hs2
    exact urlMatchAt_nil
  | succ n ih =>
    intro t hle hnu
    cases t with
    | nil =>
      intro s hs
      have hs2 : s = [] := List.suffix_nil.mp (by simpa [collapseWs_nil] using hs)
      subst hs2
      exact urlMatchAt_nil
    | cons c rest =>
      by_cases hc : isWsChar c = true
      · rw [collapseWs_cons_ws hc]
        intro s hs
        rcases List.suffix_cons_iff.mp hs with rfl | hs2
        · exact urlMatchAt_ws_head (by decide)
        · have hdsuf : rest.dropWhile isWsChar <:+ c :: rest :=
            (List.dropWhile_suffix _).trans (List.suffix_cons _ _)
          have hdl := (List.dropWhile_suffix isWsChar (l := rest)).sublist.length_le
          exact ih (rest.dropWhile isWsChar)
            (by simp only [List.length_cons] at hle; omega)
            (NoUrl_suffix hnu hdsuf) s hs2
      · have hc' : isWsChar c = false := by simpa using hc
        rw [collapseWs_cons_not_ws hc']
        intro s hs
        rcases List.suffix_cons_iff.mp hs with rfl | hs2
        · cases hm2 : urlMatchAt (c :: collapseWs rest) with
          | none => rfl
          | some r2 =>
            exfalso
            obtain ⟨⟨p, hp, d, r3, ht, hd⟩, -, -⟩ := urlMatchAt_some_facts hm2
            obtain ⟨c0, p2, rfl, hp2ne, hp2cond⟩ := urlPfx_cons hp
            rw [List.cons_append] at ht
            have hc0 : c = c0 := List.head_eq_of_cons_eq ht
            have hrest : collapseWs rest = p2 ++ d :: r3 := List.tail_eq_of_cons_eq ht
            have hpre : (p2 ++ [d]) <+: collapseWs rest :=
              prefix_snoc_iff.mpr ⟨r3, hrest⟩
            have hwin : (p2 ++ [d]) <+: rest := by
              apply prefix_reflect_collapse rest (p2 ++ [d]) (by simp) ?_ hpre
              intro x hx
              rcases List.mem_append.mp hx with hx | hx
              · exact (hp2cond x hx).1
              · rw [List.mem_singleton.mp hx]
                exact hd
            obtain ⟨r4, hr4⟩ := prefix_snoc_iff.mp hwin
            exact urlMatchAt_of_window hp hd
              (by rw [hc0, hr4]; rfl) (hnu _ List.suffix_rfl)
        · exact ih rest (by simp only [List.length_cons] at hle; omega)
            (NoUrl_suffix hnu (List.suffix_cons c rest)) s hs2

/-- Whitespace collapsing preserves hashtag-freeness. -/
theorem NoHash_collapseWs_aux :
    ∀ n (t : List Char), t.length ≤ n → NoHash t → NoHash (collapseWs t) := by
  intro n
  induction n with
  | zero =>
    intro t hle _
    have : t = [] := List.length_eq_zero.mp (Nat.le_zero.mp hle)
    subst this
    intro s hs
    have hs2 : s = [] := List.suffix_nil.mp (by simpa [collapseWs_nil] using hs)
    subst hs2
    exact hashMatchAt_nil
  | succ n ih =>
    intro t hle hnh
    cases t with
    | nil =>
      intro s hs
      have hs2 : s = [] := List.suffix_nil.mp (by simpa [collapseWs_nil] using hs)
      subst hs2
      exact hashMatchAt_nil
    | cons c rest =>
      by_cases hc : isWsChar c = true
      · rw [collapseWs_cons_ws hc]
        intro s hs
        rcases List.suffix_cons_iff.mp hs with rfl | hs2
        · exact hashMatchAt_not_hash_head (by decide)
        · have hdsuf : rest.dropWhile isWsChar <:+ c :: rest :=
            (List.dropWhile_suffix _).trans (List.suffix_cons _ _)
          have hdl := (List.dropWhile_suffix isWsChar (l := rest)).sublist.length_le
          exact ih (rest.dropWhile isWsChar)
            (by simp only [List.length_cons] at hle; omega)
            (NoHash_suffix hnh hdsuf) s hs2
      · have hc' : isWsChar c = false := by simpa using hc
        rw [collapseWs_cons_not_ws hc']
        intro s hs
        rcases List.suffix_cons_iff.mp hs with rfl | hs2
        · cases hm2 : hashMatchAt (c :: collapseWs rest) with
          | none => rfl
          | some r2 =>
            exfalso
            obtain ⟨d, rest2, ht, hwd, hhd, -⟩ := hashMatchAt_eq_some.mp hm2
            have hc0 : c = '#' := List.head_eq_of_cons_eq ht
            have hrest : collapseWs rest = d :: rest2 := List.tail_eq_of_cons_eq ht
            have hwin : [d] <+: rest := by
              apply prefix_reflect_collapse rest [d] (by simp)
                (by intro x hx; rw [List.mem_singleton.mp hx]; exact hwd)
              exact ⟨rest2, hrest.symm ▸ rfl⟩
            obtain ⟨r4, hr4⟩ := hwin
            exact hashMatchAt_of_window hwd hhd
              (by rw [hc0, ← hr4]; rfl) (hnh _ List.suffix_rfl)
        · exact ih rest (by simp only [List.length_cons] at hle; omega)
            (NoHash_suffix hnh (List.suffix_cons c rest)) s hs2

/-- Trimming returns a contiguous middle segment of the input. -/
theorem trimWs_decomp (t : List Char) :
    ∃ a b, t = a ++ trimWs t ++ b := by
  refine ⟨t.takeWhile isWsChar,
    (((t.dropWhile isWsChar).reverse.takeWhile isWsChar).reverse), ?_⟩
  have h1 : t = t.takeWhile isWsChar ++ t.dropWhile isWsChar :=
    (List.takeWhile_append_dropWhile isWsChar t).symm
  have h2 : t.dropWhile isWsChar
      = trimWs t ++ ((t.dropWhile isWsChar).reverse.takeWhile isWsChar).reverse := by
    have h3 : (t.dropWhile isWsChar).reverse
        = (t.dropWhile isWsChar).reverse.takeWhile isWsChar
          ++ (t.dropWhile isWsChar).reverse.dropWhile isWsChar :=
      (List.takeWhile_append_dropWhile isWsChar _).symm
    calc t.dropWhile isWsChar
        = (t.dropWhile isWsChar).reverse.reverse := (List.reverse_reverse _).symm
      _ = ((t.dropWhile isWsChar).reverse.takeWhile isWsChar
            ++ (t.dropWhile isWsChar).reverse.dropWhile isWsChar).reverse := by rw [← h3]
      _ = trimWs t ++ ((t.dropWhile isWsChar).reverse.takeWhile isWsChar).reverse := by
            rw [List.reverse_append]
            rfl
  calc t = t.takeWhile isWsChar ++ t.dropWhile isWsChar := h1
    _ = t.takeWhile isWsChar
        ++ (trimWs t ++ ((t.dropWhile isWsChar).reverse.takeWhile isWsChar).reverse) := by
          rw [← h2]
    _ = _ := by rw [List.append_assoc]

/-- Trimming preserves URL-freeness. -/
theorem NoUrl_trimWs {t : List Char} (h : NoUrl t) : NoUrl (trimWs t) := by
  intro s hs
  cases hm : urlMatchAt s with
  | none => rfl
  | some r =>
    exfalso
    obtain ⟨⟨p, hp, d, r2, hsdec, hd⟩, -, -⟩ := urlMatchAt_some_facts hm
    obtain ⟨a, b, hab⟩ := trimWs_decomp t
    obtain ⟨pre, hpre⟩ := hs
    have hsb : (s ++ b) <:+ t := by
      refine ⟨a ++ pre, ?_⟩
      rw [hab, ← hpre]
      simp [List.append_assoc]
    have hwin : s ++ b = p ++ d :: (r2 ++ b) := by
      rw [hsdec]
      simp
    exact urlMatchAt_of_window hp hd hwin (h _ hsb)

/-- Trimming preserves hashtag-freeness. -/
theorem NoHash_trimWs {t : List Char} (h : NoHash t) : NoHash (trimWs t) := by
  intro s hs
  cases hm : hashMatchAt s with
  | none => rfl
  | some r =>
    exfalso
    obtain ⟨-, -, d, rest, hsdec, hwd, hhd⟩ := hashMatchAt_some_facts hm
    obtain ⟨a, b, hab⟩ := trimWs_decomp t
    obtain ⟨pre, hpre⟩ := hs
    have hsb : (s ++ b) <:+ t := by
      refine ⟨a ++ pre, ?_⟩
      rw [hab, ← hpre]
      simp [List.append_assoc]
    have hwin : s ++ b = '#' :: d :: (rest ++ b) := by
      rw [hsdec]
      rfl
    exact hashMatchAt_of_window hwd hhd hwin (h _ hsb)

/-- Canonical whitespace shape after collapsing: every whitespace character is
a plain space, and no two adjacent characters are both whitespace. -/
def Canon (l : List Char) : Prop :=
  (∀ c ∈ l, isWsChar c = true → c = ' ') ∧
    l.Chain' (fun a b => isWsChar a = false ∨ isWsChar b = false)

theorem canon_head_collapse {x : List Char}
    (h : ∀ c ∈ x.head?, isWsChar c = false) :
    ∀ c ∈ (collapseWs x).head?, isWsChar c = false := by
  cases x with
  | nil =>
    intro c hc
    rw [collapseWs_nil] at hc
    cases hc
  | cons a x2 =>
    have ha : isWsChar a = false := h a rfl
    rw [collapseWs_cons_not_ws ha]
    intro c hc
    rw [Option.mem_def] at hc
    injection hc with hc
    subst hc
    exact ha

/-- The collapsed list is in canonical whitespace shape. -/
theorem canon_collapseWs_aux :
    ∀ n (t : List Char), t.length ≤ n → Canon (collapseWs t) := by
  intro n
  induction n with
  | zero =>
    intro t hle
    have : t = [] := List.length_eq_zero.mp (Nat.le_zero.mp hle)
    subst this
    rw [collapseWs_nil]
    exact ⟨(by intro c hc; cases hc), List.chain'_nil⟩
  | succ n ih =>
    intro t hle
    cases t with
    | nil =>
      rw [collapseWs_nil]
      exact ⟨(by intro c hc; cases hc), List.chain'_nil⟩
    | cons c rest =>
      by_cases hc : isWsChar c = true
      · rw [collapseWs_cons_ws hc]
        have hdl := (List.dropWhile_suffix isWsChar (l := rest)).sublist.length_le
        have hrec := ih (rest.dropWhile isWsChar)
          (by simp only [List.length_cons] at hle; omega)
        refine ⟨?_, ?_⟩
        · intro x hx _
          rcases List.mem_cons.mp hx with rfl | hx2
          · rfl
          · exact hrec.1 x hx2 (by assumption)
        · rw [List.chain'_cons']
          refine ⟨?_, hrec.2⟩
          intro b hb
          right
          apply canon_head_collapse ?_ b hb
          intro e he
          have hd := List.head?_dropWhile_not isWsChar rest
          rw [Option.mem_def] at he
          rw [he] at hd
          exact hd
      · have hc' : isWsChar c = false := by simpa using hc
        rw [collapseWs_cons_not_ws hc']
        have hrec := ih rest (by simp only [List.length_cons] at hle; omega)
        refine ⟨?_, ?_⟩
        · intro x hx hxw
          rcases List.mem_cons.mp hx with rfl | hx2
          · rw [hxw] at hc'; cases hc'
          · exact hrec.1 x hx2 hxw
        · rw [List.chain'_cons']
          exact ⟨fun b _ => Or.inl hc', hrec.2⟩

theorem canon_collapseWs (t : List Char) : Canon (collapseWs t) :=
  canon_collapseWs_aux t.length t (Nat.le_refl _)

/-- Canonical shape survives trimming (a contiguous-segment operation). -/
theorem canon_trimWs {t : List Char} (h : Canon t) : Canon (trimWs t) := by
  obtain ⟨a, b, hab⟩ := trimWs_decomp t
  refine ⟨?_, ?_⟩
  · intro c hc hw
    exact h.1 c (by rw [hab]; simp [hc]) hw
  · have h2 := h.2
    rw [hab] at h2
    exact (List.chain'_append.mp (List.chain'_append.mp h2).1).2.1

/-- A canonical list is a fixed point of whitespace collapsing. -/
theorem collapseWs_of_canon : ∀ {t : List Char}, Canon t → collapseWs t = t := by
  intro t
  induction t with
  | nil => intro _; rfl
  | cons c rest ih =>
    intro h
    have htail : Canon rest :=
      ⟨fun x hx => h.1 x (List.mem_cons_of_mem _ hx), h.2.tail⟩
    by_cases hc : isWsChar c = true
    · have hsp : c = ' ' := h.1 c (List.mem_cons_self _ _) hc
      rw [collapseWs_cons_ws hc]
      have hdrop : rest.dropWhile isWsChar = rest := by
        cases rest with
        | nil => rfl
        | cons b rest2 =>
          have hR := (List.chain'_cons'.mp h.2).1 b rfl
          rcases hR with hR | hR
          · rw [hc] at hR; cases hR
          · exact List.dropWhile_cons_of_neg (by simp [hR])
      rw [hdrop, ih htail, hsp]
    · have hc' : isWsChar c = false := by simpa using hc
      rw [collapseWs_cons_not_ws hc', ih htail]

theorem head_dropWhile_ws (l : List Char) :
    ∀ c ∈ (l.dropWhile isWsChar).head?, isWsChar c = false := by
  intro c hc
  have hd := List.head?_dropWhile_not isWsChar l
  rw [Option.mem_def] at hc
  rw [hc] at hd
  exact hd

theorem dropWhile_ws_of_head {l : List Char}
    (h : ∀ c ∈ l.head?, isWsChar c = false) : l.dropWhile isWsChar = l := by
  cases l with
  | nil => rfl
  | cons a l2 => exact List.dropWhile_cons_of_neg (by simp [h a rfl])

/-- The head of a trimmed list, when present, is not whitespace. -/
theorem trimWs_head (t : List Char) :
    ∀ c ∈ (trimWs t).head?, isWsChar c = false := by
  intro c hc
  unfold trimWs at hc
  rw [List.head?_reverse] at hc
  cases hv : (t.dropWhile isWsChar).reverse.dropWhile isWsChar with
  | nil =>
    rw [hv] at hc
    cases hc
  | cons v0 v2 =>
    rw [hv] at hc
    have hsuf : (v0 :: v2) <:+ (t.dropWhile isWsChar).reverse := by
      rw [← hv]
      exact List.dropWhile_suffix _
    obtain ⟨pre, hpre⟩ := hsuf
    have hlast : ((t.dropWhile isWsChar).reverse).getLast? = (v0 :: v2).getLast? := by
      rw [← hpre, List.getLast?_append]
      cases hgl : (v0 :: v2).getLast? with
      | none =>
        exfalso
        simp at hgl
      | some g => rfl
    have hhead : (t.dropWhile isWsChar).head? = (v0 :: v2).getLast? := by
      rw [← List.getLast?_reverse]
      exact hlast
    rw [← hhead] at hc
    exact head_dropWhile_ws t c hc

/-- The last character of a trimmed list, when present, is not whitespace. -/
theorem trimWs_last (t : List Char) :
    ∀ c ∈ (trimWs t).getLast?, isWsChar c = false := by
  intro c hc
  unfold trimWs at hc
  rw [List.getLast?_reverse] at hc
  exact head_dropWhile_ws _ c hc

/-- A list with non-whitespace head and last characters is a fixed point of
trimming. -/
theorem trimWs_fixed {x : List Char}
    (hh : ∀ c ∈ x.head?, isWsChar c = false)
    (hl : ∀ c ∈ x.getLast?, isWsChar c = false) : trimWs x = x := by
  unfold trimWs
  rw [dropWhile_ws_of_head hh]
  have hrev : ∀ c ∈ x.reverse.head?, isWsChar c = false := by
    intro c hc
    rw [List.head?_reverse] at hc
    exact hl c hc
  rw [dropWhile_ws_of_head hrev, List.reverse_reverse]

/-- Trimming is idempotent. -/
theorem trimWs_idem (t : List Char) : trimWs (trimWs t) = trimWs t :=
  trimWs_fixed (trimWs_head t) (trimWs_last t)

/-- The character-list form of `cleanText`. -/
def cleanList (l : List Char) : List Char :=
  trimWs (collapseWs (stripHashtags (stripUrls l)))

theorem NoUrl_collapseWs {t : List Char} (h : NoUrl t) : NoUrl (collapseWs t) :=
  NoUrl_collapseWs_aux t.length t (Nat.le_refl _) h

theorem NoHash_collapseWs {t : List Char} (h : NoHash t) : NoHash (collapseWs t) :=
  NoHash_collapseWs_aux t.length t (Nat.le_refl _) h

/-- The cleaned text contains no URL-like substring. -/
theorem NoUrl_cleanList (l : List Char) : NoUrl (cleanList l) :=
  NoUrl_trimWs (NoUrl_collapseWs (NoUrl_stripHashtags (NoUrl_stripUrls l)))

/-- The cleaned text contains no hashtag-like substring. -/
theorem NoHash_cleanList (l : List Char) : NoHash (cleanList l) :=
  NoHash_trimWs (NoHash_collapseWs (NoHash_stripHashtags (stripUrls l)))

/-- The cleaning pipeline is idempotent at the character-list level. -/
theorem cleanList_idem (l : List Char) : cleanList (cleanList l) = cleanList l := by
  have h1 : stripUrls (cleanList l) = cleanList l :=
    stripUrls_of_NoUrl (NoUrl_cleanList l)
  have h2 : stripHashtags (cleanList l) = cleanList l :=
    stripHashtags_of_NoHash (NoHash_cleanList l)
  show trimWs (collapseWs (stripHashtags (stripUrls (cleanList l)))) = cleanList l
  rw [h1, h2]
  show trimWs (collapseWs (trimWs (collapseWs (stripHashtags (stripUrls l)))))
      = trimWs (collapseWs (stripHashtags (stripUrls l)))
  rw [collapseWs_of_canon (canon_trimWs (canon_collapseWs _))]
  exact trimWs_idem _

theorem cleanText_eq_mk (s : String) : cleanText s = String.mk (cleanList s.data) := rfl

/-- The cleaning step is idempotent on strings. -/
theorem cleanText_idem (s : String) : cleanText (cleanText s) = cleanText s := by
  rw [cleanText_eq_mk s, cleanText_eq_mk ⟨cleanList s.data⟩]
  show String.mk (cleanList (cleanList s.data)) = _
  rw [cleanList_idem]

/-- C7: fine-tuning extraction selects exactly the non-retweet posts with
non-empty text and valid timestamp; every emitted entry is the cleaned text of
such a post, is non-empty, contains no URL-like or hashtag-like substring, and
is a fixed point of the cleaning step (idempotence on the function's own
outputs); conversely every selected post whose cleaned text is non-empty is
emitted. -/
theorem claim7_finetune (tweets : List Tweet) :
    (∀ e ∈ generateFinetuningData tweets,
      (∃ t, t ∈ tweets ∧ t.isRetweet = false ∧ t.text ≠ "" ∧ t.timestamp ≠ none ∧
        e.text = cleanText t.text) ∧
      e.text ≠ "" ∧
      cleanText e.text = e.text ∧
      NoUrl e.text.data ∧
      NoHash e.text.data) ∧
    (∀ t ∈ tweets, t.isRetweet = false → t.text ≠ "" → t.timestamp ≠ none →
      cleanText t.text ≠ "" →
      FinetuneEntry.mk (cleanText t.text) ∈ generateFinetuningData tweets) := by
  constructor
  · intro e he
    unfold generateFinetuningData at he
    rw [List.mem_filterMap] at he
    obtain ⟨t, ht, hsome⟩ := he
    obtain ⟨htw, hcond⟩ := List.mem_filter.mp ht
    have hrt : t.isRetweet = false := by
      simp only [Bool.and_eq_true, Bool.not_eq_true'] at hcond
      exact hcond.1.1
    have htext : t.text ≠ "" := by
      simp only [Bool.and_eq_true, Bool.not_eq_true'] at hcond
      intro hcon
      rw [← String.isEmpty_iff] at hcon
      rw [hcond.1.2] at hcon
      cases hcon
    have hts : t.timestamp ≠ none := by
      simp only [Bool.and_eq_true] at hcond
      exact Option.ne_none_iff_isSome.mpr hcond.2
    by_cases hce : (cleanText t.text).isEmpty = true
    · rw [if_pos hce] at hsome
      cases hsome
    · rw [if_neg hce] at hsome
      injection hsome with hsome
      subst hsome
      have hene : cleanText t.text ≠ "" := by
        intro hcon
        rw [← String.isEmpty_iff] at hcon
        exact hce hcon
      refine ⟨⟨t, htw, hrt, htext, hts, rfl⟩, hene, cleanText_idem t.text, ?_, ?_⟩
      · rw [cleanText_eq_mk]
        exact NoUrl_cleanList t.text.data
      · rw [cleanText_eq_mk]
        exact NoHash_cleanList t.text.data
  · intro t ht hrt htext hts hclean
    unfold generateFinetuningData
    rw [List.mem_filterMap]
    refine ⟨t, ?_, ?_⟩
    · rw [List.mem_filter]
      refine ⟨ht, ?_⟩
      simp only [Bool.and_eq_true, Bool.not_eq_true']
      refine ⟨⟨hrt, ?_⟩, Option.ne_none_iff_isSome.mp hts⟩
      by_cases hie : t.text.isEmpty = true
      · exact absurd ((String.isEmpty_iff t.text).mp hie) htext
      · simpa using hie
    · rw [if_neg (by intro hcon; exact hclean ((String.isEmpty_iff _).mp hcon))]

/-- A sample tweet whose text mixes a hashtag and a URL. -/
def c7Tweet : Tweet :=
  { mkTweet "c7" 1 0 false (some 7) with
    text := "hello #world http://x.co/a done" }

/-- Witness for C7 at a concrete input: the sample tweet is selected and
cleaned to "hello done", and cleaning that output again leaves it unchanged. -/
theorem claim7_witness :
    FinetuneEntry.mk (cleanText c7Tweet.text) ∈ generateFinetuningData [c7Tweet] ∧
    cleanText c7Tweet.text = "hello done" ∧
    (∀ e ∈ generateFinetuningData [c7Tweet], cleanText e.text = e.text) := by
  refine ⟨?_, by decide, ?_⟩
  · exact (claim7_finetune [c7Tweet]).2 c7Tweet (List.mem_singleton.mpr rfl) rfl
      (by decide) (by decide) (by decide)
  · intro e he
    exact ((claim7_finetune [c7Tweet]).1 e he).2.2.1
